import Mathlib

set_option maxRecDepth 8000

/-!
Verification of `regelum/environment/node.py`.

The module is embedded shallowly: Python runtime objects that the module
manipulates (`State` instances, lists, `None`, opaque numeric arrays,
CasADi symbols) are modelled by one inductive type `PyObj`; Python strings
are modelled as their character sequences (`List Char`); fallible
constructors and methods return `Except`; the mutable `symbolic_value`
cache of a `State` is modelled as a field that the embedded Python
equality `pyEq` ignores, because it is not a dataclass field and so
Python's generated `__eq__` does not compare it.
-/

namespace Regelum

/-- Python strings, modelled as their character sequences. -/
abbrev PyStr := List Char

/-- Python runtime objects handled by the module.  `state` mirrors the
`State` dataclass: `name`, `dims`, the raw `_value` slot, the derived
`is_leaf` flag (stored, set by `__post_init__` and never recomputed), and
the `symbolic_value` cache (set lazily by `to_casadi_symbolic`; not a
dataclass field).  `atom` is an opaque non-`State` scalar value such as a
numeric array, identified by a tag; `symref` is an opaque CasADi symbol
identified by its creation arguments. -/
inductive PyObj : Type where
  | pynone : PyObj
  | atom (tag : Nat) : PyObj
  | symref (name : PyStr) (dims : Option (List Nat)) : PyObj
  | pylist (elems : List PyObj) : PyObj
  | state (name : PyStr) (dims : Option (List Nat)) (val : PyObj)
      (leaf : Bool) (sym : Option (PyStr × Option (List Nat))) : PyObj

mutual

/-- Structural equality of embedded Python objects, used to build the
decidable-equality instance of `PyObj`. -/
def pyObjBeq : PyObj → PyObj → Bool
  | .pynone, .pynone => true
  | .atom a, .atom b => a == b
  | .symref n1 d1, .symref n2 d2 => n1 == n2 && d1 == d2
  | .pylist xs, .pylist ys => pyListBeq xs ys
  | .state n1 d1 v1 l1 s1, .state n2 d2 v2 l2 s2 =>
      n1 == n2 && d1 == d2 && pyObjBeq v1 v2 && l1 == l2 && s1 == s2
  | _, _ => false

/-- Elementwise `pyObjBeq` on lists. -/
def pyListBeq : List PyObj → List PyObj → Bool
  | [], [] => true
  | x :: xs, y :: ys => pyObjBeq x y && pyListBeq xs ys
  | _, _ => false

end

mutual

theorem pyObjBeq_iff : (a b : PyObj) → (pyObjBeq a b = true ↔ a = b)
  | .pynone, b => by cases b <;> simp [pyObjBeq]
  | .atom t, b => by cases b <;> simp [pyObjBeq]
  | .symref n d, b => by cases b <;> simp [pyObjBeq]
  | .pylist xs, b => by
      cases b <;> simp [pyObjBeq]
      case pylist ys => exact pyListBeq_iff xs ys
  | .state n d v l s, b => by
      cases b <;> simp [pyObjBeq]
      case state n2 d2 v2 l2 s2 => simp [pyObjBeq_iff v v2, and_assoc]

theorem pyListBeq_iff : (xs ys : List PyObj) → (pyListBeq xs ys = true ↔ xs = ys)
  | [], ys => by cases ys <;> simp [pyListBeq]
  | x :: xs, ys => by
      cases ys <;> simp [pyListBeq]
      case cons y ys => simp [pyObjBeq_iff x y, pyListBeq_iff xs ys]

end

instance : DecidableEq PyObj := fun a b => decidable_of_iff _ (pyObjBeq_iff a b)

instance : Inhabited PyObj := ⟨.pynone⟩

/-- `isinstance(x, State)`. -/
def isStateObj : PyObj → Bool
  | .state _ _ _ _ _ => true
  | _ => false

/-- `State.__post_init__`: computes `is_leaf` and performs the module's
hierarchy check.  In the source, the `TypeError` is raised only when
`is_leaf` is false and some element of the list is not a `State`, and
`is_leaf` is false only when every element is a `State`. -/
def mkState (name : PyStr) (dims : Option (List Nat)) (value : PyObj) :
    Except String PyObj :=
  let isLeaf : Bool :=
    match value with
    | .pylist xs => !(!xs.isEmpty && xs.all isStateObj)
    | _ => true
  let allStates : Bool :=
    match value with
    | .pylist xs => xs.all isStateObj
    | _ => true
  if !isLeaf && !allStates then
    .error "The _value of a hierarchical State must be a list of State instances."
  else
    .ok (.state name dims value isLeaf none)

/-- Accessor for the `name` attribute of a `State` object. -/
def stateName : PyObj → PyStr
  | .state n _ _ _ _ => n
  | _ => []

/-- Accessor for the `dims` attribute of a `State` object. -/
def stateDims : PyObj → Option (List Nat)
  | .state _ d _ _ _ => d
  | _ => none

/-- Accessor for the raw `_value` slot of a `State` object. -/
def stateVal : PyObj → PyObj
  | .state _ _ v _ _ => v
  | _ => .pynone

/-- Accessor for the stored `is_leaf` flag of a `State` object. -/
def stateIsLeaf : PyObj → Bool
  | .state _ _ _ l _ => l
  | _ => false

/-- Accessor for the `symbolic_value` cache of a `State` object. -/
def stateSym : PyObj → Option (PyStr × Option (List Nat))
  | .state _ _ _ _ s => s
  | _ => none

/-- The setter of the `value` property: `self._value = new_value`.  Only the
raw value slot changes; `is_leaf` is not recomputed and the symbolic cache
is untouched.  On a non-`State` object the setter does not exist; we return
the object unchanged. -/
def setValue (s newValue : PyObj) : PyObj :=
  match s with
  | .state n d _ leaf sym => .state n d newValue leaf sym
  | other => other

/-- Python `path.split("/")` specialised to the slash separator. -/
def splitOnSlash : PyStr → List PyStr
  | [] => [[]]
  | c :: rest =>
    match splitOnSlash rest with
    | [] => [[]]
    | p :: ps => if c = '/' then [] :: p :: ps else (c :: p) :: ps

/-- Python `"/".join(parts)`. -/
def joinSlash : List PyStr → PyStr
  | [] => []
  | [p] => p
  | p :: ps => p ++ '/' :: joinSlash ps

/-- `[state for state in path.split("/") if state]` — split and drop the
empty components. -/
def pathParts (s : PyStr) : List PyStr :=
  (splitOnSlash s).filter (fun p => !p.isEmpty)

mutual

/-- The body of `State.search_by_path` once the path has been split into
its non-empty components: match the first component against the state's
own name, return the state itself when the path ends there, otherwise
recurse into the children with the re-joined remainder (a leaf with a
longer remaining path yields no match).  A non-leaf whose value slot is
not a list never arises from construction; the embedding returns no match
there. -/
def searchSplit (s : PyObj) (parts : List PyStr) : Option PyObj :=
  match s with
  | .state name _ value leaf _ =>
    match parts with
    | [] => none
    | p0 :: restParts =>
      if p0 = name then
        if restParts.isEmpty then some s
        else if leaf then none
        else
          match value with
          | .pylist xs => searchList xs (joinSlash restParts)
          | _ => none
      else none
  | _ => none

/-- The `for substate in self._value` loop of `search_by_path`: each child
receives the joined path, which it splits again on entry (as the recursive
call to `search_by_path` does in the source); the first non-`None`
recursive result wins. -/
def searchList (xs : List PyObj) (path : PyStr) : Option PyObj :=
  match xs with
  | [] => none
  | x :: rest =>
    match searchSplit x (pathParts path) with
    | some r => some r
    | none => searchList rest path

end

/-- `State.search_by_path`: split the path on slashes, drop the empty
components, and run the matcher. -/
def searchByPath (s : PyObj) (path : PyStr) : Option PyObj :=
  searchSplit s (pathParts path)

mutual

/-- `State._collect_paths`: depth-first collection of the slash-joined
root-to-leaf paths, threading the `prefix` argument as in the source. -/
def collectPaths (s : PyObj) (pfx : PyStr) : List PyStr :=
  match s with
  | .state name _ value leaf _ =>
    let cur := if pfx.isEmpty then name else pfx ++ '/' :: name
    if leaf then [cur]
    else
      match value with
      | .pylist xs => collectPathsList xs cur
      | _ => []
  | _ => []

/-- The `for substate in self._value` loop of `_collect_paths`. -/
def collectPathsList (xs : List PyObj) (pfx : PyStr) : List PyStr :=
  match xs with
  | [] => []
  | x :: rest => collectPaths x pfx ++ collectPathsList rest pfx

end

/-- `State.paths`: all root-to-leaf paths, starting from the empty prefix. -/
def pathsOf (s : PyObj) : List PyStr :=
  collectPaths s []

mutual

/-- Instrumented `_collect_paths` that pairs every produced path with the
leaf `State` object that produced it. -/
def collectPairs (s : PyObj) (pfx : PyStr) : List (PyStr × PyObj) :=
  match s with
  | .state name _ value leaf _ =>
    let cur := if pfx.isEmpty then name else pfx ++ '/' :: name
    if leaf then [(cur, s)]
    else
      match value with
      | .pylist xs => collectPairsList xs cur
      | _ => []
  | _ => []

/-- The child loop of `collectPairs`. -/
def collectPairsList (xs : List PyObj) (pfx : PyStr) : List (PyStr × PyObj) :=
  match xs with
  | [] => []
  | x :: rest => collectPairs x pfx ++ collectPairsList rest pfx

end

mutual

/-- `State._collect_states`: all leaf `State` objects, depth-first, where
leafness is the stored flag. -/
def getAllStates : PyObj → List PyObj
  | .state name dims v leaf sym =>
    if leaf then [.state name dims v leaf sym]
    else
      match v with
      | .pylist xs => getAllStatesList xs
      | _ => []
  | _ => []

/-- The child loop of `getAllStates`. -/
def getAllStatesList : List PyObj → List PyObj
  | [] => []
  | x :: rest => getAllStates x ++ getAllStatesList rest

end

/-- `State.is_defined`: every leaf's stored value is not `None`. -/
def isDefined (s : PyObj) : Bool :=
  (getAllStates s).all fun l =>
    match l with
    | .state _ _ .pynone _ _ => false
    | _ => true

mutual

/-- Well-formedness of a state tree used for the path round-trip analysis:
every name is a non-empty string without a slash, and below a non-leaf the
children are well-formed states with pairwise distinct names. -/
def goodState : PyObj → Bool
  | .state n _ v leaf _ =>
    (!n.isEmpty && !(decide ('/' ∈ n))) &&
    (leaf ||
      (match v with
       | .pylist xs => goodStateList xs && decide ((xs.map stateName).Nodup)
       | _ => false))
  | _ => false

/-- `goodState` for every element of a children list. -/
def goodStateList : List PyObj → Bool
  | [] => true
  | x :: rest => goodState x && goodStateList rest

end

mutual

/-- Name-sequence version of `collectPairs`: each produced entry carries the
list of names from the root to the leaf rather than the slash-joined
string. -/
def collectParts : PyObj → List (List PyStr × PyObj)
  | .state name dims v leaf sym =>
    if leaf then [([name], .state name dims v leaf sym)]
    else
      match v with
      | .pylist xs => (collectPartsList xs).map (fun pr => (name :: pr.1, pr.2))
      | _ => []
  | _ => []

/-- The child loop of `collectParts`. -/
def collectPartsList : List PyObj → List (List PyStr × PyObj)
  | [] => []
  | x :: rest => collectParts x ++ collectPartsList rest

end

mutual

/-- Name-sequence version of `search_by_path`: identical branching, but on
an already-split list of path components. -/
def searchParts (s : PyObj) (parts : List PyStr) : Option PyObj :=
  match s with
  | .state name _ value leaf _ =>
    match parts with
    | [] => none
    | p0 :: restParts =>
      if p0 = name then
        if restParts.isEmpty then some s
        else if leaf then none
        else
          match value with
          | .pylist xs => searchPartsList xs restParts
          | _ => none
      else none
  | _ => none

/-- The child loop of `searchParts`. -/
def searchPartsList (xs : List PyObj) (parts : List PyStr) : Option PyObj :=
  match xs with
  | [] => none
  | x :: rest =>
    match searchParts x parts with
    | some r => some r
    | none => searchPartsList rest parts

end

/-- How `_collect_paths` extends its running prefix with a whole name
sequence: join the sequence and prepend the prefix when non-empty. -/
def joinPfx (pfx : PyStr) (parts : List PyStr) : PyStr :=
  if pfx.isEmpty then joinSlash parts else pfx ++ '/' :: joinSlash parts

theorem splitOnSlash_cons_eq (c : Char) (rest : PyStr) :
    splitOnSlash (c :: rest) =
      match splitOnSlash rest with
      | [] => [[]]
      | p :: ps => if c = '/' then [] :: p :: ps else (c :: p) :: ps := rfl

theorem splitOnSlash_ne_nil (s : PyStr) : splitOnSlash s ≠ [] := by
  induction s with
  | nil => simp [splitOnSlash]
  | cons c rest ih =>
    rw [splitOnSlash_cons_eq]
    rcases h : splitOnSlash rest with _ | ⟨p, ps⟩
    · simp
    · by_cases hc : c = '/' <;> simp [hc]

theorem splitOnSlash_no_slash (p : PyStr) (h : '/' ∉ p) : splitOnSlash p = [p] := by
  induction p with
  | nil => rfl
  | cons c rest ih =>
    have hc : c ≠ '/' := by rintro rfl; exact h (List.mem_cons_self _ _)
    have hr : '/' ∉ rest := fun hm => h (List.mem_cons_of_mem _ hm)
    simp only [splitOnSlash, ih hr]
    simp [hc]

theorem splitOnSlash_append (p : PyStr) (h : '/' ∉ p) (s : PyStr) :
    ∃ q qs, splitOnSlash s = q :: qs ∧ splitOnSlash (p ++ s) = (p ++ q) :: qs := by
  induction p with
  | nil =>
    rcases hs : splitOnSlash s with _ | ⟨q, qs⟩
    · exact absurd hs (splitOnSlash_ne_nil s)
    · exact ⟨q, qs, rfl, by simpa using hs⟩
  | cons c rest ih =>
    have hc : c ≠ '/' := by rintro rfl; exact h (List.mem_cons_self _ _)
    have hr : '/' ∉ rest := fun hm => h (List.mem_cons_of_mem _ hm)
    obtain ⟨q, qs, hs, happ⟩ := ih hr
    refine ⟨q, qs, hs, ?_⟩
    rw [List.cons_append, splitOnSlash_cons_eq, happ]
    simp [hc]

theorem splitOnSlash_cons_slash (s : PyStr) :
    splitOnSlash ('/' :: s) = [] :: splitOnSlash s := by
  simp only [splitOnSlash]
  rcases h : splitOnSlash s with _ | ⟨p, ps⟩
  · exact absurd h (splitOnSlash_ne_nil s)
  · simp

theorem joinSlash_cons (p : PyStr) (ps : List PyStr) (h : ps ≠ []) :
    joinSlash (p :: ps) = p ++ '/' :: joinSlash ps := by
  cases ps with
  | nil => exact absurd rfl h
  | cons q qs => rfl

theorem pathParts_joinSlash (parts : List PyStr) (hne : parts ≠ [])
    (hval : ∀ p ∈ parts, p ≠ [] ∧ '/' ∉ p) :
    pathParts (joinSlash parts) = parts := by
  induction parts with
  | nil => exact absurd rfl hne
  | cons p rest ih =>
    obtain ⟨hp, hps⟩ := hval p (List.mem_cons_self _ _)
    cases rest with
    | nil =>
      show pathParts (joinSlash [p]) = [p]
      simp only [joinSlash, pathParts, splitOnSlash_no_slash p hps]
      simp [List.isEmpty_iff, hp]
    | cons q qs =>
      have hrest : ∀ r ∈ q :: qs, r ≠ [] ∧ '/' ∉ r :=
        fun r hr => hval r (List.mem_cons_of_mem _ hr)
      have hjoin : joinSlash (p :: q :: qs) = p ++ '/' :: joinSlash (q :: qs) := rfl
      obtain ⟨w, ws, hsplit, happ⟩ :=
        splitOnSlash_append p hps ('/' :: joinSlash (q :: qs))
      rw [splitOnSlash_cons_slash] at hsplit
      obtain ⟨rfl, hws⟩ : w = [] ∧ ws = splitOnSlash (joinSlash (q :: qs)) := by
        cases hsplit; exact ⟨rfl, rfl⟩
      have := ih (by simp) hrest
      simp only [pathParts] at this ⊢
      rw [hjoin, happ, hws]
      simp only [List.filter_cons]
      simp only [List.append_nil]
      rw [this]
      simp [List.isEmpty_iff, hp]

theorem collectParts_state_leaf (n : PyStr) (d : Option (List Nat)) (v : PyObj)
    (sym : Option (PyStr × Option (List Nat))) :
    collectParts (.state n d v true sym) = [([n], .state n d v true sym)] := rfl

theorem collectParts_state_hier (n : PyStr) (d : Option (List Nat)) (xs : List PyObj)
    (sym : Option (PyStr × Option (List Nat))) :
    collectParts (.state n d (.pylist xs) false sym)
      = (collectPartsList xs).map (fun pr => (n :: pr.1, pr.2)) := rfl

theorem collectPartsList_cons (x : PyObj) (rest : List PyObj) :
    collectPartsList (x :: rest) = collectParts x ++ collectPartsList rest := rfl

/-- A shared consequence of `goodState` on a `state` object: the name is a
valid path component, and in the non-leaf case the value is a list of good
children with pairwise distinct names. -/
theorem goodState_state_elim (n : PyStr) (d : Option (List Nat)) (v : PyObj) (leaf : Bool)
    (sym : Option (PyStr × Option (List Nat)))
    (h : goodState (.state n d v leaf sym) = true) :
    (n ≠ [] ∧ '/' ∉ n) ∧
      (leaf = false → ∃ xs, v = .pylist xs ∧ goodStateList xs = true ∧
        (xs.map stateName).Nodup) := by
  cases leaf with
  | true =>
    simp only [goodState, Bool.true_or, Bool.and_true, Bool.and_eq_true,
      Bool.not_eq_true'] at h
    exact ⟨⟨by simpa [List.isEmpty_iff] using h.1,
      by simpa using h.2⟩, by rintro ⟨⟩⟩
  | false =>
    cases v with
    | pylist xs =>
      simp only [goodState, Bool.false_or, Bool.and_eq_true, Bool.not_eq_true',
        decide_eq_true_eq] at h
      exact ⟨⟨by simpa [List.isEmpty_iff] using h.1.1, by simpa using h.1.2⟩,
        fun _ => ⟨xs, rfl, h.2.1, h.2.2⟩⟩
    | pynone => exact absurd h (by simp [goodState])
    | atom t => exact absurd h (by simp [goodState])
    | symref m d2 => exact absurd h (by simp [goodState])
    | state m d2 v2 l2 s2 => exact absurd h (by simp [goodState])

theorem goodState_isState (s : PyObj) (h : goodState s = true) :
    ∃ n d v leaf sym, s = .state n d v leaf sym := by
  cases s with
  | state n d v leaf sym => exact ⟨n, d, v, leaf, sym, rfl⟩
  | pynone => exact absurd h (by simp [goodState])
  | atom t => exact absurd h (by simp [goodState])
  | symref n d => exact absurd h (by simp [goodState])
  | pylist xs => exact absurd h (by simp [goodState])

theorem collectParts_shape (s : PyObj) :
    ∀ pr ∈ collectParts s, ∃ t, pr.1 = stateName s :: t := by
  intro pr hpr
  cases s with
  | state n d v leaf sym =>
    cases leaf with
    | true =>
      rw [collectParts_state_leaf] at hpr
      rw [List.mem_singleton.mp hpr]
      exact ⟨[], rfl⟩
    | false =>
      cases v with
      | pylist xs =>
        rw [collectParts_state_hier] at hpr
        obtain ⟨q, _, rfl⟩ := List.mem_map.mp hpr
        exact ⟨q.1, rfl⟩
      | pynone => exact absurd hpr (by intro hc; cases hc)
      | atom t => exact absurd hpr (by intro hc; cases hc)
      | symref m d2 => exact absurd hpr (by intro hc; cases hc)
      | state m d2 v2 l2 s2 => exact absurd hpr (by intro hc; cases hc)
  | pynone => exact absurd hpr (by intro hc; cases hc)
  | atom t => exact absurd hpr (by intro hc; cases hc)
  | symref n d => exact absurd hpr (by intro hc; cases hc)
  | pylist xs => exact absurd hpr (by intro hc; cases hc)

mutual

theorem goodState_parts : (s : PyObj) → goodState s = true →
    ∀ pr ∈ collectParts s, ∀ p ∈ pr.1, p ≠ [] ∧ '/' ∉ p
  | .state n d v leaf sym, h, pr, hpr, p, hp => by
    obtain ⟨hnval, hhier⟩ := goodState_state_elim n d v leaf sym h
    cases leaf with
    | true =>
      rw [collectParts_state_leaf] at hpr
      rw [List.mem_singleton.mp hpr] at hp
      rw [List.mem_singleton.mp hp]
      exact hnval
    | false =>
      obtain ⟨xs, rfl, hgl, _⟩ := hhier rfl
      rw [collectParts_state_hier] at hpr
      obtain ⟨q, hq, rfl⟩ := List.mem_map.mp hpr
      rcases List.mem_cons.mp hp with rfl | hp
      · exact hnval
      · exact goodStateList_parts xs hgl q hq p hp
  | .pynone, h, pr, hpr, p, hp => by exact absurd h (by simp [goodState])
  | .atom t, h, pr, hpr, p, hp => by exact absurd h (by simp [goodState])
  | .symref n d, h, pr, hpr, p, hp => by exact absurd h (by simp [goodState])
  | .pylist xs, h, pr, hpr, p, hp => by exact absurd h (by simp [goodState])

theorem goodStateList_parts : (xs : List PyObj) → goodStateList xs = true →
    ∀ pr ∈ collectPartsList xs, ∀ p ∈ pr.1, p ≠ [] ∧ '/' ∉ p
  | [], _, pr, hpr, p, hp => by exact absurd hpr (by intro hc; cases hc)
  | x :: rest, h, pr, hpr, p, hp => by
    have h' : goodState x = true ∧ goodStateList rest = true := by
      simpa only [goodStateList, Bool.and_eq_true] using h
    rw [collectPartsList_cons] at hpr
    rcases List.mem_append.mp hpr with hpr | hpr
    · exact goodState_parts x h'.1 pr hpr p hp
    · exact goodStateList_parts rest h'.2 pr hpr p hp

end

theorem mem_collectPartsList : ∀ (xs : List PyObj) (pr : List PyStr × PyObj),
    pr ∈ collectPartsList xs → ∃ c ∈ xs, pr ∈ collectParts c
  | [], pr, hpr => by exact absurd hpr (by intro hc; cases hc)
  | x :: rest, pr, hpr => by
    rw [collectPartsList_cons] at hpr
    rcases List.mem_append.mp hpr with hpr | hpr
    · exact ⟨x, List.mem_cons_self _ _, hpr⟩
    · obtain ⟨c, hc, hcc⟩ := mem_collectPartsList rest pr hpr
      exact ⟨c, List.mem_cons_of_mem _ hc, hcc⟩

theorem searchByPath_eq_searchSplit (s : PyObj) (path : PyStr) :
    searchByPath s path = searchSplit s (pathParts path) := rfl

mutual

theorem searchSplit_bridge : (s : PyObj) → ∀ parts,
    (∀ p ∈ parts, p ≠ [] ∧ '/' ∉ p) →
    searchSplit s parts = searchParts s parts
  | .pynone, parts, _ => rfl
  | .atom t, parts, _ => rfl
  | .symref n d, parts, _ => rfl
  | .pylist xs, parts, _ => rfl
  | .state n d v leaf sym, parts, hval => by
    cases parts with
    | nil => rfl
    | cons p0 rest =>
      cases v with
      | pylist xs =>
        have e1 : searchSplit (.state n d (.pylist xs) leaf sym) (p0 :: rest)
            = (if p0 = n then
                if rest.isEmpty then some (PyObj.state n d (.pylist xs) leaf sym)
                else if leaf then none
                else searchList xs (joinSlash rest)
              else none) := rfl
        have e2 : searchParts (.state n d (.pylist xs) leaf sym) (p0 :: rest)
            = (if p0 = n then
                if rest.isEmpty then some (PyObj.state n d (.pylist xs) leaf sym)
                else if leaf then none
                else searchPartsList xs rest
              else none) := rfl
        rw [e1, e2]
        by_cases hp0 : p0 = n
        · rw [if_pos hp0, if_pos hp0]
          by_cases hre : rest.isEmpty
          · rw [if_pos hre, if_pos hre]
          · rw [if_neg hre, if_neg hre]
            cases leaf with
            | true => rfl
            | false =>
              show searchList xs (joinSlash rest) = searchPartsList xs rest
              have hrne : rest ≠ [] := by
                intro hc
                rw [hc] at hre
                exact hre rfl
              exact searchList_bridge xs rest hrne
                (fun p hp => hval p (List.mem_cons_of_mem _ hp))
        · rw [if_neg hp0, if_neg hp0]
      | pynone => by_cases hp0 : p0 = n <;> by_cases hre : rest.isEmpty <;>
          cases leaf <;> simp [searchSplit, searchParts, hp0, hre]
      | atom t => by_cases hp0 : p0 = n <;> by_cases hre : rest.isEmpty <;>
          cases leaf <;> simp [searchSplit, searchParts, hp0, hre]
      | symref m d2 => by_cases hp0 : p0 = n <;> by_cases hre : rest.isEmpty <;>
          cases leaf <;> simp [searchSplit, searchParts, hp0, hre]
      | state m d2 v2 l2 s2 => by_cases hp0 : p0 = n <;> by_cases hre : rest.isEmpty <;>
          cases leaf <;> simp [searchSplit, searchParts, hp0, hre]
termination_by s parts hval => sizeOf s

theorem searchList_bridge : (xs : List PyObj) → ∀ parts, parts ≠ [] →
    (∀ p ∈ parts, p ≠ [] ∧ '/' ∉ p) →
    searchList xs (joinSlash parts) = searchPartsList xs parts
  | [], parts, _, _ => rfl
  | x :: xs, parts, hne, hval => by
    have e1 : searchList (x :: xs) (joinSlash parts)
        = (match searchSplit x (pathParts (joinSlash parts)) with
           | some r => some r
           | none => searchList xs (joinSlash parts)) := rfl
    have e2 : searchPartsList (x :: xs) parts
        = (match searchParts x parts with
           | some r => some r
           | none => searchPartsList xs parts) := rfl
    rw [e1, e2, pathParts_joinSlash parts hne hval, searchSplit_bridge x parts hval]
    cases searchParts x parts with
    | some r => rfl
    | none => exact searchList_bridge xs parts hne hval
termination_by xs parts hne hval => sizeOf xs

end

theorem searchByPath_bridge (s : PyObj) (parts : List PyStr) (hne : parts ≠ [])
    (hval : ∀ p ∈ parts, p ≠ [] ∧ '/' ∉ p) :
    searchByPath s (joinSlash parts) = searchParts s parts := by
  rw [searchByPath_eq_searchSplit s (joinSlash parts),
    pathParts_joinSlash parts hne hval]
  exact searchSplit_bridge s parts hval

mutual

theorem collectPairs_fst : (s : PyObj) → ∀ pfx,
    (collectPairs s pfx).map Prod.fst = collectPaths s pfx
  | .pynone, pfx => rfl
  | .atom t, pfx => rfl
  | .symref n d, pfx => rfl
  | .pylist xs, pfx => rfl
  | .state n d v leaf sym, pfx => by
    cases leaf with
    | true => rfl
    | false =>
      cases v with
      | pylist xs => exact collectPairsList_fst xs _
      | pynone => rfl
      | atom t => rfl
      | symref m d2 => rfl
      | state m d2 v2 l2 s2 => rfl

theorem collectPairsList_fst : (xs : List PyObj) → ∀ pfx,
    (collectPairsList xs pfx).map Prod.fst = collectPathsList xs pfx
  | [], pfx => rfl
  | x :: rest, pfx => by
    show ((collectPairs x pfx ++ collectPairsList rest pfx).map Prod.fst) = _
    rw [List.map_append, collectPairs_fst x pfx, collectPairsList_fst rest pfx]
    rfl

end

theorem joinPfx_cons (pfx n : PyStr) (ps : List PyStr) (hn : n ≠ []) (hps : ps ≠ []) :
    joinPfx pfx (n :: ps) = joinPfx (joinPfx pfx [n]) ps := by
  have hj : joinSlash (n :: ps) = n ++ '/' :: joinSlash ps := joinSlash_cons n ps hps
  have hn' : n.isEmpty = false := by simpa [List.isEmpty_iff] using hn
  cases hpfx : pfx.isEmpty with
  | true =>
    have : pfx = [] := List.isEmpty_iff.mp hpfx
    subst this
    simp [joinPfx, hj, joinSlash, hn']
  | false =>
    simp [joinPfx, hpfx, hj, joinSlash, List.isEmpty_iff]

mutual

theorem collectPairs_eq : (s : PyObj) → goodState s = true → ∀ pfx,
    collectPairs s pfx = (collectParts s).map (fun pr => (joinPfx pfx pr.1, pr.2))
  | .state n d v leaf sym, h, pfx => by
    cases leaf with
    | true => rfl
    | false =>
      obtain ⟨hnval, hhier⟩ := goodState_state_elim n d v false sym h
      obtain ⟨xs, rfl, hgl, _⟩ := hhier rfl
      have e1 : collectPairs (.state n d (.pylist xs) false sym) pfx
          = collectPairsList xs (joinPfx pfx [n]) := rfl
      have e2 : collectParts (.state n d (.pylist xs) false sym)
          = (collectPartsList xs).map (fun pr => (n :: pr.1, pr.2)) := rfl
      rw [e1, e2, collectPairsList_eq xs hgl (joinPfx pfx [n]), List.map_map]
      apply List.map_congr_left
      intro pr hpr
      obtain ⟨c, hc, hcc⟩ := mem_collectPartsList xs pr hpr
      obtain ⟨t, hqt⟩ := collectParts_shape c pr hcc
      have hne1 : pr.1 ≠ [] := by rw [hqt]; exact List.cons_ne_nil _ _
      have := joinPfx_cons pfx n pr.1 hnval.1 hne1
      simp only [Function.comp_apply]
      rw [← this]
  | .pynone, h, pfx => by exact absurd h (by simp [goodState])
  | .atom t, h, pfx => by exact absurd h (by simp [goodState])
  | .symref n d, h, pfx => by exact absurd h (by simp [goodState])
  | .pylist xs, h, pfx => by exact absurd h (by simp [goodState])
termination_by s h pfx => sizeOf s

theorem collectPairsList_eq : (xs : List PyObj) → goodStateList xs = true → ∀ pfx,
    collectPairsList xs pfx = (collectPartsList xs).map (fun pr => (joinPfx pfx pr.1, pr.2))
  | [], _, pfx => rfl
  | x :: rest, h, pfx => by
    have h' : goodState x = true ∧ goodStateList rest = true := by
      simpa only [goodStateList, Bool.and_eq_true] using h
    have e1 : collectPairsList (x :: rest) pfx
        = collectPairs x pfx ++ collectPairsList rest pfx := rfl
    have e2 : collectPartsList (x :: rest) = collectParts x ++ collectPartsList rest := rfl
    rw [e1, e2, List.map_append, collectPairs_eq x h'.1 pfx,
      collectPairsList_eq rest h'.2 pfx]
termination_by xs h pfx => sizeOf xs

end

theorem searchParts_mismatch (n : PyStr) (d : Option (List Nat)) (v : PyObj)
    (leaf : Bool) (sym : Option (PyStr × Option (List Nat))) (p0 : PyStr)
    (rest : List PyStr) (hp0 : p0 ≠ n) :
    searchParts (.state n d v leaf sym) (p0 :: rest) = none := by
  cases v with
  | pylist xs =>
    have e : searchParts (.state n d (.pylist xs) leaf sym) (p0 :: rest)
        = (if p0 = n then
            if rest.isEmpty then some (PyObj.state n d (.pylist xs) leaf sym)
            else if leaf then none
            else searchPartsList xs rest
          else none) := rfl
    rw [e, if_neg hp0]
  | pynone =>
    have e : searchParts (.state n d .pynone leaf sym) (p0 :: rest)
        = (if p0 = n then
            if rest.isEmpty then some (PyObj.state n d .pynone leaf sym)
            else if leaf then none
            else none
          else none) := rfl
    rw [e, if_neg hp0]
  | atom t =>
    have e : searchParts (.state n d (.atom t) leaf sym) (p0 :: rest)
        = (if p0 = n then
            if rest.isEmpty then some (PyObj.state n d (.atom t) leaf sym)
            else if leaf then none
            else none
          else none) := rfl
    rw [e, if_neg hp0]
  | symref m d2 =>
    have e : searchParts (.state n d (.symref m d2) leaf sym) (p0 :: rest)
        = (if p0 = n then
            if rest.isEmpty then some (PyObj.state n d (.symref m d2) leaf sym)
            else if leaf then none
            else none
          else none) := rfl
    rw [e, if_neg hp0]
  | state m d2 v2 l2 s2 =>
    have e : searchParts (.state n d (.state m d2 v2 l2 s2) leaf sym) (p0 :: rest)
        = (if p0 = n then
            if rest.isEmpty then some (PyObj.state n d (.state m d2 v2 l2 s2) leaf sym)
            else if leaf then none
            else none
          else none) := rfl
    rw [e, if_neg hp0]

mutual

theorem searchParts_roundtrip : (s : PyObj) → goodState s = true →
    ∀ pr ∈ collectParts s, searchParts s pr.1 = some pr.2
  | .state n d v leaf sym, h, pr, hpr => by
    cases leaf with
    | true =>
      rw [collectParts_state_leaf] at hpr
      rw [List.mem_singleton.mp hpr]
      have e : searchParts (.state n d v true sym) [n]
          = (if n = n then some (PyObj.state n d v true sym) else none) := by
        cases v <;> rfl
      rw [e, if_pos rfl]
    | false =>
      obtain ⟨hnval, hhier⟩ := goodState_state_elim n d v false sym h
      obtain ⟨xs, rfl, hgl, hnd⟩ := hhier rfl
      rw [collectParts_state_hier] at hpr
      obtain ⟨q, hq, rfl⟩ := List.mem_map.mp hpr
      obtain ⟨c, hc, hcc⟩ := mem_collectPartsList xs q hq
      obtain ⟨t, hqt⟩ := collectParts_shape c q hcc
      have hqne : q.1.isEmpty = false := by
        rw [hqt]; rfl
      have e : searchParts (.state n d (.pylist xs) false sym) (n :: q.1)
          = (if n = n then
              if q.1.isEmpty then some (PyObj.state n d (.pylist xs) false sym)
              else searchPartsList xs q.1
            else none) := rfl
      rw [e, if_pos rfl, hqne]
      show searchPartsList xs q.1 = some q.2
      exact searchPartsList_roundtrip xs hgl hnd q hq
  | .pynone, h, pr, hpr => by exact absurd h (by simp [goodState])
  | .atom t, h, pr, hpr => by exact absurd h (by simp [goodState])
  | .symref n d, h, pr, hpr => by exact absurd h (by simp [goodState])
  | .pylist xs, h, pr, hpr => by exact absurd h (by simp [goodState])
termination_by s h pr hpr => sizeOf s

theorem searchPartsList_roundtrip : (xs : List PyObj) → goodStateList xs = true →
    (xs.map stateName).Nodup →
    ∀ pr ∈ collectPartsList xs, searchPartsList xs pr.1 = some pr.2
  | [], _, _, pr, hpr => by exact absurd hpr (by intro hc; cases hc)
  | x :: rest, h, hnd, pr, hpr => by
    have h' : goodState x = true ∧ goodStateList rest = true := by
      simpa only [goodStateList, Bool.and_eq_true] using h
    have e1 : searchPartsList (x :: rest) pr.1
        = (match searchParts x pr.1 with
           | some r => some r
           | none => searchPartsList rest pr.1) := rfl
    have hnd0 : (stateName x :: rest.map stateName).Nodup := by
      rw [List.map_cons] at hnd
      exact hnd
    have hnd' : (rest.map stateName).Nodup ∧ stateName x ∉ rest.map stateName := by
      have := List.nodup_cons.mp hnd0
      exact ⟨this.2, this.1⟩
    rw [collectPartsList_cons] at hpr
    rcases List.mem_append.mp hpr with hpr1 | hpr2
    · rw [e1, searchParts_roundtrip x h'.1 pr hpr1]
    · obtain ⟨c, hc, hcc⟩ := mem_collectPartsList rest pr hpr2
      obtain ⟨t, hqt⟩ := collectParts_shape c pr hcc
      have hnx : stateName c ≠ stateName x := by
        intro hcx
        exact hnd'.2 (hcx ▸ List.mem_map_of_mem _ hc)
      obtain ⟨nx, dx, vx, lx, sx, rfl⟩ := goodState_isState x h'.1
      have hnone : searchParts (.state nx dx vx lx sx) pr.1 = none := by
        rw [hqt]
        exact searchParts_mismatch nx dx vx lx sx (stateName c) t hnx
      rw [e1, hnone]
      show searchPartsList rest pr.1 = some pr.2
      exact searchPartsList_roundtrip rest h'.2 hnd'.1 pr hpr2
termination_by xs h hnd pr hpr => sizeOf xs

end

/-- A non-uniform children list: one `State` and one plain value. -/
def mixedChildren : PyObj :=
  .pylist [.state "a".data none (.atom 1) true none, .atom 7]

/-- A children list made only of `State` instances. -/
def allStateChildren : PyObj :=
  .pylist [.state "a".data none (.atom 1) true none,
    .state "b".data none (.atom 2) true none]

/-- C4: the claim says a `State` built over a non-empty list mixing `State`
and non-`State` elements raises a construction-time error.  The code does
not: `__post_init__` raises only when `is_leaf` is false and some element
is not a `State`, but `is_leaf` is false only when every element is a
`State`, so the `TypeError` is unreachable and the mixed state is silently
classified as a leaf — contradicting the module's own error message.  The
all-`State` half of the claim does hold: construction succeeds with
`is_leaf` false. -/
theorem C4_mixed_children_silently_accepted :
    mkState "s".data none mixedChildren
        = .ok (.state "s".data none mixedChildren true none)
    ∧ mkState "s".data none allStateChildren
        = .ok (.state "s".data none allStateChildren false none) :=
  ⟨rfl, rfl⟩

/-- C10: writing through the `value` setter replaces only the raw value
slot: `name`, `dims`, `is_leaf` and the cached symbolic placeholder are
untouched.  In particular `is_leaf` is not recomputed — writing a list of
child `State`s into a leaf keeps `is_leaf` true, whereas constructing a
fresh `State` over the same list would compute `is_leaf` false. -/
theorem C10_value_setter_frame (n n2 : PyStr) (d : Option (List Nat)) (v v2 : PyObj)
    (leaf : Bool) (sym : Option (PyStr × Option (List Nat))) :
    setValue (.state n d v leaf sym) v2 = .state n d v2 leaf sym
    ∧ stateName (setValue (.state n d v leaf sym) v2) = n
    ∧ stateDims (setValue (.state n d v leaf sym) v2) = d
    ∧ stateIsLeaf (setValue (.state n d v leaf sym) v2) = leaf
    ∧ stateSym (setValue (.state n d v leaf sym) v2) = sym
    ∧ stateVal (setValue (.state n d v leaf sym) v2) = v2
    ∧ stateIsLeaf (setValue (.state n d v true sym)
        (.pylist [.state n2 d v2 true none])) = true
    ∧ mkState n d (.pylist [.state n2 d v2 true none])
        = .ok (.state n d (.pylist [.state n2 d v2 true none]) false none) :=
  ⟨rfl, rfl, rfl, rfl, rfl, rfl, rfl, rfl⟩

/-- C6 (amended): on a state tree whose names are non-empty, slash-free and
pairwise distinct among siblings at every level, `paths` and
`search_by_path` round-trip: searching any produced leaf path returns
exactly the leaf that produced it.  (`collectPairs` is `paths` instrumented
to keep the producing leaf; its first components are exactly `paths`.) -/
theorem C6_roundtrip_on_sibling_unique_trees (s : PyObj) (h : goodState s = true) :
    (collectPairs s []).map Prod.fst = pathsOf s
    ∧ ∀ pr ∈ collectPairs s [], searchByPath s pr.1 = some pr.2 := by
  refine ⟨collectPairs_fst s [], ?_⟩
  intro pr hpr
  rw [collectPairs_eq s h []] at hpr
  obtain ⟨q, hq, rfl⟩ := List.mem_map.mp hpr
  have hval := goodState_parts s h q hq
  obtain ⟨t, hqt⟩ := collectParts_shape s q hq
  have hne : q.1 ≠ [] := by rw [hqt]; exact List.cons_ne_nil _ _
  show searchByPath s (joinPfx [] q.1) = some q.2
  have hjp : joinPfx [] q.1 = joinSlash q.1 := rfl
  rw [hjp, searchByPath_bridge s q.1 hne hval]
  exact searchParts_roundtrip s h q hq

/-- A small nested tree used to instantiate the round-trip theorem. -/
def wTree : PyObj :=
  .state "t".data none (.pylist
    [.state "h".data none (.pylist
      [.state "b".data none (.atom 5) true none]) false none,
     .state "c".data none (.atom 6) true none]) false none

/-- Witness for `C6_roundtrip_on_sibling_unique_trees` at a concrete tree. -/
theorem C6_roundtrip_witness :
    (collectPairs wTree []).map Prod.fst = pathsOf wTree
    ∧ ∀ pr ∈ collectPairs wTree [], searchByPath wTree pr.1 = some pr.2 :=
  C6_roundtrip_on_sibling_unique_trees wTree (by decide)

/-- Two sibling leaves that share the name `a` but differ in value. -/
def dupLeaf1 : PyObj := .state "a".data none (.atom 1) true none

/-- The second, distinct leaf named `a`. -/
def dupLeaf2 : PyObj := .state "a".data none (.atom 2) true none

/-- The tree `State("r", None, [State("a", None, 1), State("a", None, 2)])`. -/
def dupTree : PyObj := .state "r".data none (.pylist [dupLeaf1, dupLeaf2]) false none

/-- C6 (counterexample to the claim as stated): on the tree whose two leaf
children both are named `a`, the path `r/a` is produced by the second leaf
as well, but `search_by_path` returns the first leaf, which is a different
`State` instance (different stored value) — so `paths`/`search_by_path` do
not round-trip on every leaf of every tree. -/
theorem C6_duplicate_sibling_counterexample :
    mkState "r".data none (.pylist [dupLeaf1, dupLeaf2]) = .ok dupTree
    ∧ ("r/a".data, dupLeaf2) ∈ collectPairs dupTree []
    ∧ pathsOf dupTree = ["r/a".data, "r/a".data]
    ∧ searchByPath dupTree "r/a".data = some dupLeaf1
    ∧ dupLeaf1 ≠ dupLeaf2 :=
  ⟨rfl, by decide, by decide, by decide, by decide⟩

/-- The `Inputs` dataclass: the declared dependency paths, the resolved
`State` references, and the `_resolved` flag (false until `resolve`
succeeds, since `resolve` sets it only after every path resolved). -/
structure Inputs where
  paths_to_states : List PyStr
  states : List PyObj := []
  resolvedFlag : Bool := false
  deriving DecidableEq

instance : Inhabited Inputs := ⟨⟨[], [], false⟩⟩

/-- The dictionary returned by the `value` property getter: leaves carry a
`value` entry, hierarchical states carry a `states` entry instead. -/
inductive PyDict : Type where
  | leafDict (name : PyStr) (dims : Option (List Nat)) (value : PyObj) : PyDict
  | hierDict (name : PyStr) (dims : Option (List Nat)) (states : List PyDict) : PyDict

mutual

/-- The getter of the `value` property.  In symbolic mode a leaf yields the
cached CasADi symbol when present, otherwise a symbol built from the
state's name and dims (`to_casadi_symbolic`; the embedding does not track
the write to the cache, which only memoizes the same handle).  A non-leaf
with a non-list value never arises from construction. -/
def valueProp (symbolic : Bool) : PyObj → PyDict
  | .state name dims v leaf sym =>
    if leaf then
      .leafDict name dims
        (if symbolic then
          (match sym with
           | some (nm, dm) => .symref nm dm
           | none => .symref name dims)
         else v)
    else
      match v with
      | .pylist xs => .hierDict name dims (valuePropList symbolic xs)
      | _ => .hierDict name dims []
  | _ => .leafDict [] none .pynone

/-- The `[substate.value for substate in self._value]` loop. -/
def valuePropList (symbolic : Bool) : List PyObj → List PyDict
  | [] => []
  | x :: rest => valueProp symbolic x :: valuePropList symbolic rest

end

/-- The `["value"]` lookup on a value dict: a `KeyError` on a hierarchical
dict, which lacks that key. -/
def valueKey : PyDict → Except String PyObj
  | .leafDict _ _ v => .ok v
  | .hierDict _ _ _ => .error "KeyError: value"

/-- `Inputs.collect`: raises when paths are declared but not yet resolved;
returns the empty mapping when no paths were declared, whatever the
resolution state; otherwise maps each resolved state's name to its
`value["value"]` entry. -/
def Inputs.collect (symbolic : Bool) (i : Inputs) : Except String (List (PyStr × PyObj)) :=
  if i.paths_to_states.length > 0 then
    if !i.resolvedFlag then .error "Resolve inputs before collecting"
    else
      i.states.foldr
        (fun s acc => do
          let l ← acc
          let v ← valueKey (valueProp symbolic s)
          .ok ((stateName s, v) :: l))
        (.ok [])
  else .ok []

/-- C7: with at least one declared path, `collect()` before a successful
`resolve()` (resolved flag still false) raises; with an empty declared path
list, `collect()` returns the empty mapping regardless of the resolved
flag or of the symbolic mode. -/
theorem C7_collect_guards (symbolic : Bool) (i : Inputs) :
    (i.paths_to_states ≠ [] → i.resolvedFlag = false →
      i.collect symbolic = .error "Resolve inputs before collecting")
    ∧ (i.paths_to_states = [] → i.collect symbolic = .ok []) := by
  constructor
  · intro hne hflag
    have hlen : 0 < i.paths_to_states.length := List.length_pos.mpr hne
    simp [Inputs.collect, hlen, hflag]
  · intro he
    simp [Inputs.collect, he]

/-- Witness for `C7_collect_guards` at concrete resolvers. -/
theorem C7_collect_guards_witness :
    Inputs.collect false ⟨["x".data], [], false⟩
        = .error "Resolve inputs before collecting"
    ∧ Inputs.collect false ⟨[], [], false⟩ = .ok []
    ∧ Inputs.collect true ⟨[], [], true⟩ = .ok [] :=
  ⟨(C7_collect_guards false ⟨["x".data], [], false⟩).1 (by decide) rfl,
   (C7_collect_guards false ⟨[], [], false⟩).2 rfl,
   (C7_collect_guards true ⟨[], [], true⟩).2 rfl⟩

/-- A constructed `Node`: its attributes after `Node.__init__` ran. -/
structure NodeObj where
  inputs : Inputs
  state : PyObj
  is_root : Bool
  deriving DecidableEq

instance : Inhabited NodeObj := ⟨⟨⟨[], [], false⟩, .pynone, false⟩⟩

/-- The `inputs` argument of `Node.__init__`: either a list of path strings
(wrapped into a fresh `Inputs`) or a pre-built `Inputs`. -/
inductive InputsArg : Type where
  | ofList (paths : List PyStr) : InputsArg
  | ofInputs (i : Inputs) : InputsArg

/-- `Node.__init__`.  `preInputs`/`preState` model class-level predefined
`inputs`/`state` attributes (the `hasattr` checks see them already set);
`inputs`/`state` are the constructor arguments.  Missing state is fatal,
and a root's state must be `is_defined` — both checked here, at
construction. -/
def nodeCtor (preInputs : Option Inputs) (preState : Option PyObj)
    (inputs : Option InputsArg) (state : Option PyObj) (is_root : Bool) :
    Except String NodeObj := do
  let inp : Inputs :=
    match preInputs with
    | some i => i
    | none =>
      match inputs with
      | some (.ofList l) => ⟨l, [], false⟩
      | some (.ofInputs i) => i
      | none => ⟨[], [], false⟩
  let st : PyObj ←
    match preState with
    | some s => pure s
    | none =>
      match state with
      | some s => pure s
      | none => .error "State must be fully specified."
  if is_root && !(isDefined st) then
    .error "Initial state must be defined for the root node"
  else
    .ok ⟨inp, st, is_root⟩

/-- C8: constructing a node with no state at all (no predefined class-level
state, no state argument) fails; with the root flag set, construction fails
when some leaf of the supplied state is undefined and succeeds when the
state is fully defined — all at construction time. -/
theorem C8_node_ctor_guards (preI : Option Inputs) (ia : Option InputsArg)
    (st : PyObj) (r : Bool) :
    (nodeCtor preI none ia none r = .error "State must be fully specified.")
    ∧ (isDefined st = false → nodeCtor preI none ia (some st) true
        = .error "Initial state must be defined for the root node")
    ∧ (isDefined st = true → nodeCtor preI none ia (some st) true
        = .ok ⟨(match preI with
                | some i => i
                | none =>
                  match ia with
                  | some (.ofList l) => ⟨l, [], false⟩
                  | some (.ofInputs i) => i
                  | none => ⟨[], [], false⟩), st, true⟩) := by
  refine ⟨?_, ?_, ?_⟩
  · simp [nodeCtor, Bind.bind, Except.bind]
  · intro hdef
    simp [nodeCtor, Bind.bind, Except.bind, Pure.pure, Except.pure, hdef]
  · intro hdef
    simp [nodeCtor, Bind.bind, Except.bind, Pure.pure, Except.pure, hdef]

/-- Witness for `C8_node_ctor_guards` at concrete inputs: no state at all;
a root with an undefined leaf; a root with a defined leaf. -/
theorem C8_node_ctor_guards_witness :
    (nodeCtor none none none none false = .error "State must be fully specified.")
    ∧ (nodeCtor none none none (some (.state "p".data none .pynone true none)) true
        = .error "Initial state must be defined for the root node")
    ∧ (nodeCtor none none none (some (.state "p".data none (.atom 1) true none)) true
        = .ok ⟨⟨[], [], false⟩, .state "p".data none (.atom 1) true none, true⟩) :=
  ⟨(C8_node_ctor_guards none none (.state "p".data none .pynone true none) false).1,
   (C8_node_ctor_guards none none (.state "p".data none .pynone true none) true).2.1
     (by decide),
   (C8_node_ctor_guards none none (.state "p".data none (.atom 1) true none) true).2.2
     (by decide)⟩

/-- The fixed rounding precision `1e-9` of `float_gcd`, as an exact
rational (floating-point values are modelled as exact rationals). -/
def prec : ℚ := 1 / 1000000000

/-- Rational floor computed by integer floor-division on the numerator and
denominator. -/
def ratFloor (q : ℚ) : ℤ := Int.fdiv q.num (q.den : ℤ)

/-- Python `round`: nearest integer, ties to even. -/
def pyRound (q : ℚ) : ℤ :=
  let f := ratFloor q
  let r := q - (f : ℚ)
  if r < 1/2 then f
  else if 1/2 < r then f + 1
  else if f % 2 = 0 then f else f + 1

/-- `Clock.__init__.float_gcd`: divide both operands by the precision,
round, take the integer gcd, rescale by the precision. -/
def float_gcd (a b : ℚ) : ℚ :=
  (Int.gcd (pyRound (a / prec)) (pyRound (b / prec)) : ℚ) * prec

/-- `Clock.__init__`: the fundamental step size is
`reduce(float_gcd, step_sizes)` unless all step sizes are equal
(`len(set(step_sizes)) > 1` fails), in which case the first element is
taken unchanged.  `none` models the crash on an empty node list. -/
def clockFundamental (stepSizes : List ℚ) : Option ℚ :=
  match stepSizes with
  | [] => none
  | s :: rest =>
    some (if (s :: rest).dedup.length > 1 then rest.foldl float_gcd s else s)

/-- Folding the integer gcd over the rounded step sizes, starting from an
already-computed gcd. -/
def roundedGcd : ℕ → List ℚ → ℕ
  | g, [] => g
  | g, b :: rest => roundedGcd (Int.gcd (g : ℤ) (pyRound (b / prec))) rest

/-- The pairwise gcd of all step sizes after rounding each to the `prec`
grid (defined for lists of length at least two). -/
def clockRoundedGcd (sizes : List ℚ) : ℕ :=
  match sizes with
  | a :: b :: t => roundedGcd (Int.gcd (pyRound (a / prec)) (pyRound (b / prec))) t
  | _ => 0

theorem ratFloor_intCast (n : ℤ) : ratFloor (n : ℚ) = n := by
  rw [ratFloor, Rat.num_intCast, Rat.den_intCast]
  cases n with
  | ofNat m => cases m with
    | zero => rfl
    | succ k =>
      show Int.ofNat ((k + 1) / 1) = Int.ofNat (k + 1)
      rw [Nat.div_one]
  | negSucc m => show Int.negSucc (m / 1) = Int.negSucc m; simp

theorem pyRound_intCast (n : ℤ) : pyRound (n : ℚ) = n := by
  rw [pyRound]
  simp only [ratFloor_intCast, sub_self]
  rw [if_pos (by norm_num)]

theorem float_gcd_natscaled (g : ℕ) (b : ℚ) :
    float_gcd ((g : ℚ) * prec) b = (Int.gcd (g : ℤ) (pyRound (b / prec)) : ℚ) * prec := by
  have hprec : (prec : ℚ) ≠ 0 := by norm_num [prec]
  have h1 : ((g : ℚ) * prec) / prec = ((g : ℤ) : ℚ) := by
    rw [mul_div_assoc, div_self hprec, mul_one]
    push_cast
    rfl
  rw [float_gcd, h1, pyRound_intCast]

theorem foldl_float_gcd (l : List ℚ) : ∀ g : ℕ,
    l.foldl float_gcd ((g : ℚ) * prec) = (roundedGcd g l : ℚ) * prec := by
  induction l with
  | nil => intro g; rfl
  | cons b rest ih =>
    intro g
    rw [List.foldl_cons, float_gcd_natscaled g b]
    exact ih (Int.gcd (g : ℤ) (pyRound (b / prec)))

theorem replicate_dedup (q : ℚ) : ∀ k : ℕ, (List.replicate (k+1) q).dedup = [q] := by
  intro k
  induction k with
  | zero => simp
  | succ k ih =>
    rw [List.replicate_succ, List.dedup_cons_of_mem (by simp [List.mem_replicate]), ih]

/-- C9: the Clock fundamental step size.  The two spec scenarios: step
sizes `0.1` and `0.05` yield `0.05`, and `0.3` and `0.2` yield `0.1`.  The
gcd pass is skipped when all step sizes are equal (the common size is
returned unchanged, without rounding), and on any list with two distinct
sizes the result is the repeated pairwise gcd of all sizes rounded to the
`1e-9` grid, rescaled. -/
theorem C9_clock_fundamental_step :
    clockFundamental [1/10, 1/20] = some (1/20)
    ∧ clockFundamental [3/10, 1/5] = some (1/10)
    ∧ (∀ q : ℚ, ∀ k : ℕ, clockFundamental (List.replicate (k+1) q) = some q)
    ∧ (∀ a b : ℚ, ∀ t : List ℚ, (a :: b :: t).dedup.length > 1 →
        clockFundamental (a :: b :: t)
          = some ((clockRoundedGcd (a :: b :: t) : ℚ) * prec)) := by
  have hgen : ∀ a b : ℚ, ∀ t : List ℚ, (a :: b :: t).dedup.length > 1 →
      clockFundamental (a :: b :: t)
        = some ((clockRoundedGcd (a :: b :: t) : ℚ) * prec) := by
    intro a b t hd
    show some _ = some _
    rw [if_pos hd, List.foldl_cons]
    have hab : float_gcd a b
        = ((Int.gcd (pyRound (a / prec)) (pyRound (b / prec)) : ℕ) : ℚ) * prec := rfl
    rw [hab, foldl_float_gcd t]
    rfl
  refine ⟨?_, ?_, ?_, hgen⟩
  · have hd : ([1/10, 1/20] : List ℚ).dedup.length > 1 := by
      rw [List.dedup_cons_of_not_mem (by norm_num),
        List.dedup_cons_of_not_mem (List.not_mem_nil _), List.dedup_nil]
      norm_num
    rw [hgen (1/10) (1/20) [] hd]
    have h1 : (1:ℚ)/10 / prec = ((100000000 : ℤ) : ℚ) := by norm_num [prec]
    have h2 : (1:ℚ)/20 / prec = ((50000000 : ℤ) : ℚ) := by norm_num [prec]
    show some ((roundedGcd (Int.gcd (pyRound ((1:ℚ)/10 / prec)) (pyRound ((1:ℚ)/20 / prec))) [] : ℚ) * prec) = _
    rw [h1, h2, pyRound_intCast, pyRound_intCast]
    have hg : Int.gcd 100000000 50000000 = 50000000 := by decide
    rw [roundedGcd, hg]
    norm_num [prec]
  · have hd : ([3/10, 1/5] : List ℚ).dedup.length > 1 := by
      rw [List.dedup_cons_of_not_mem (by norm_num),
        List.dedup_cons_of_not_mem (List.not_mem_nil _), List.dedup_nil]
      norm_num
    rw [hgen (3/10) (1/5) [] hd]
    have h1 : (3:ℚ)/10 / prec = ((300000000 : ℤ) : ℚ) := by norm_num [prec]
    have h2 : (1:ℚ)/5 / prec = ((200000000 : ℤ) : ℚ) := by norm_num [prec]
    show some ((roundedGcd (Int.gcd (pyRound ((3:ℚ)/10 / prec)) (pyRound ((1:ℚ)/5 / prec))) [] : ℚ) * prec) = _
    rw [h1, h2, pyRound_intCast, pyRound_intCast]
    have hg : Int.gcd 300000000 200000000 = 100000000 := by decide
    rw [roundedGcd, hg]
    norm_num [prec]
  · intro q k
    have hrep : List.replicate (k+1) q = q :: List.replicate k q := List.replicate_succ q k
    rw [hrep]
    show some _ = some _
    rw [if_neg]
    rw [← hrep, replicate_dedup q k]
    norm_num

/-- Witness for the conditional clause of `C9_clock_fundamental_step`:
instantiated at step sizes `0.3` and `0.2`, whose dedup has length two. -/
theorem C9_clock_fundamental_step_witness :
    clockFundamental [3/10, 1/5]
      = some ((clockRoundedGcd [3/10, 1/5] : ℚ) * prec) :=
  C9_clock_fundamental_step.2.2.2 (3/10) (1/5) []
    (by
      rw [List.dedup_cons_of_not_mem (by norm_num),
        List.dedup_cons_of_not_mem (List.not_mem_nil _), List.dedup_nil]
      norm_num)

mutual

/-- Erase the `symbolic_value` caches everywhere; structural equality of
the results is exactly Python `==` between module objects (`State.__eq__`
is the generated dataclass equality of `(name, dims, _value, is_leaf)`,
which recurses through lists and nested states and never compares the
cache, which is not a dataclass field). -/
def stripSym : PyObj → PyObj
  | .state n d v leaf _ => .state n d (stripSym v) leaf none
  | .pylist xs => .pylist (stripSymList xs)
  | x => x

/-- `stripSym` on every element of a list. -/
def stripSymList : List PyObj → List PyObj
  | [] => []
  | x :: rest => stripSym x :: stripSymList rest

end

/-- Python `==` between module objects. -/
def pyEq (a b : PyObj) : Bool := decide (stripSym a = stripSym b)

/-- `node.state.name`. -/
def nodeName (n : NodeObj) : PyStr := stateName n.state

/-- Insertion into a Python dict modelled as an association list: an
existing key keeps its position and gets the new value, a new key is
appended. -/
def dictInsert : List (PyStr × NodeObj) → PyStr → NodeObj → List (PyStr × NodeObj)
  | [], k, v => [(k, v)]
  | p :: rest, k, v => if p.1 = k then (k, v) :: rest else p :: dictInsert rest k v

/-- The `node_state_inputs_map` dict comprehension of `Graph.resolve`,
keyed by state name: nodes with duplicate names silently collapse (the
last node wins the value, the first occurrence keeps the position). -/
def buildMap (nodes : List NodeObj) : List (PyStr × NodeObj) :=
  nodes.foldl (fun m n => dictInsert m (nodeName n) n) []

/-- Dict lookup by key. -/
def dictGet : List (PyStr × NodeObj) → PyStr → Option NodeObj
  | [], _ => none
  | p :: rest, k => if p.1 = k then some p.2 else dictGet rest k

/-- The dict's keys, in insertion order. -/
def dictKeys (m : List (PyStr × NodeObj)) : List PyStr := m.map Prod.fst

/-- `[node_state_inputs_map[n]["state"] for n in ordered_node_names]`. -/
def orderedStates (m : List (PyStr × NodeObj)) (ordered : List PyStr) : List PyObj :=
  ordered.filterMap (fun k => (dictGet m k).map (fun info => info.state))

/-- The placement condition of `Graph.resolve`: every resolved input state
is `==`-equal to some already-placed node's state, or the node is a root. -/
def readyCond (m : List (PyStr × NodeObj)) (ordered : List PyStr) (info : NodeObj) : Bool :=
  info.inputs.states.all (fun i => (orderedStates m ordered).any (fun s => pyEq i s))
    || info.is_root

/-- One step of the scan: `if node_name not in ordered_node_names: if
ready: append`. -/
def scanStep (m : List (PyStr × NodeObj)) (ord : List PyStr) (p : PyStr × NodeObj) :
    List PyStr :=
  if p.1 ∈ ord then ord
  else if readyCond m ord p.2 then ord ++ [p.1] else ord

/-- One round of the `for node_name, node_info in ...items()` loop; the
list of already-placed states is recomputed before each node, so
placements made earlier in the same round already count. -/
def roundScan (m : List (PyStr × NodeObj)) (ordered : List PyStr) : List PyStr :=
  m.foldl (scanStep m) ordered

/-- The two failures of `Graph.resolve`: the (unreachable) duplicate-name
assert, and the round-budget assert carrying `keys - set(ordered)`. -/
inductive ResolveErr : Type where
  | dupNames : ResolveErr
  | unresolved (unplaced : List PyStr) : ResolveErr
  deriving DecidableEq

/-- The while loop with its round budget (`n_times_max` rounds): with no
budget left and nodes still unplaced, the assert fires carrying the keys
not yet placed. -/
def resolveAux (m : List (PyStr × NodeObj)) :
    Nat → List PyStr → Except ResolveErr (List PyStr)
  | 0, ordered =>
    if ordered.length < m.length then
      .error (.unresolved ((dictKeys m).filter (fun k => decide (k ∉ ordered))))
    else .ok ordered
  | fuel + 1, ordered =>
    if ordered.length < m.length then resolveAux m fuel (roundScan m ordered)
    else .ok ordered

/-- `Graph.resolve`.  The duplicate-name assert compares the number of
distinct dict keys with the dict's size; dict keys are unique by
construction, so it can never fire.  After ordering, each placed name is
mapped back to the first node of the original list bearing it. -/
def graphResolve (nodes : List NodeObj) : Except ResolveErr (List NodeObj) :=
  let m := buildMap nodes
  if (dictKeys m).dedup.length = m.length then
    match resolveAux m m.length [] with
    | .error e => .error e
    | .ok ordered =>
      .ok (ordered.filterMap
        (fun k => nodes.find? (fun n => decide (nodeName n = k))))
  else .error .dupNames

/-- The names still unplaced when the round budget runs out: the keys not
placed after `N` rounds of scanning from the empty order. -/
def unresolvedNames (nodes : List NodeObj) : List PyStr :=
  (dictKeys (buildMap nodes)).filter
    (fun k => decide (k ∉ Nat.iterate (roundScan (buildMap nodes)) (buildMap nodes).length []))

/-- `X reads Y`: some resolved input state of `X` is `==`-equal to `Y`'s
whole state. -/
def inputMem (x y : NodeObj) : Bool :=
  x.inputs.states.any (fun i => pyEq i y.state)

/-- The first of two root nodes both named `plant`. -/
def plantNode1 : NodeObj :=
  ⟨⟨[], [], true⟩, .state "plant".data (some [1]) (.atom 1) true none, true⟩

/-- The second root node named `plant`, with a different state value. -/
def plantNode2 : NodeObj :=
  ⟨⟨[], [], true⟩, .state "plant".data (some [1]) (.atom 2) true none, true⟩

/-- C3: two distinct nodes with the same top-level state name do NOT fail
`Graph.resolve`: the duplicate assert compares `len(set(dict.keys()))`
with `len(dict)`, which are always equal because dict keys are unique —
the dict comprehension has already collapsed the duplicates.  Resolution
succeeds and returns a single node (the first one named `plant`),
silently dropping the other. -/
theorem C3_duplicate_names_not_rejected :
    nodeName plantNode1 = nodeName plantNode2
    ∧ plantNode1 ≠ plantNode2
    ∧ graphResolve [plantNode1, plantNode2] = .ok [plantNode1] :=
  ⟨rfl, by decide, rfl⟩

theorem dictInsert_of_not_mem (m : List (PyStr × NodeObj)) (k : PyStr) (v : NodeObj)
    (h : k ∉ dictKeys m) : dictInsert m k v = m ++ [(k, v)] := by
  induction m with
  | nil => rfl
  | cons p rest ih =>
    have hpk : p.1 ≠ k := fun hc => h (by simp [dictKeys, hc])
    have hr : k ∉ dictKeys rest := fun hc => h (by simp [dictKeys] at hc ⊢; exact .inr hc)
    simp only [dictInsert, if_neg hpk, ih hr, List.cons_append]

theorem buildMap_aux (nodes : List NodeObj) : ∀ acc : List (PyStr × NodeObj),
    (∀ n ∈ nodes, nodeName n ∉ dictKeys acc) → (nodes.map nodeName).Nodup →
    nodes.foldl (fun m n => dictInsert m (nodeName n) n) acc
      = acc ++ nodes.map (fun n => (nodeName n, n)) := by
  induction nodes with
  | nil => intro acc _ _; simp
  | cons n rest ih =>
    intro acc hacc hnd
    have hnd0 : (nodeName n :: rest.map nodeName).Nodup := by
      rw [List.map_cons] at hnd
      exact hnd
    have hnd' : (rest.map nodeName).Nodup ∧ nodeName n ∉ rest.map nodeName := by
      have := List.nodup_cons.mp hnd0
      exact ⟨this.2, this.1⟩
    rw [List.foldl_cons,
      dictInsert_of_not_mem acc (nodeName n) n (hacc n (List.mem_cons_self _ _))]
    rw [ih (acc ++ [(nodeName n, n)]) ?_ hnd'.1]
    · simp
    · intro x hx
      simp only [dictKeys, List.map_append, List.mem_append]
      rintro (hονε | hδυο)
      · exact hacc x (List.mem_cons_of_mem _ hx) hονε
      · simp at hδυο
        exact hnd'.2 (hδυο ▸ List.mem_map_of_mem _ hx)

theorem buildMap_eq (nodes : List NodeObj) (hnd : (nodes.map nodeName).Nodup) :
    buildMap nodes = nodes.map (fun n => (nodeName n, n)) := by
  have := buildMap_aux nodes [] (by simp [dictKeys]) hnd
  simpa [buildMap] using this

theorem dictKeys_buildMap_eq (nodes : List NodeObj) (hnd : (nodes.map nodeName).Nodup) :
    dictKeys (buildMap nodes) = nodes.map nodeName := by
  rw [buildMap_eq nodes hnd, dictKeys, List.map_map]
  rfl

theorem dictKeys_dictInsert (m : List (PyStr × NodeObj)) (k : PyStr) (v : NodeObj) :
    dictKeys (dictInsert m k v) = if k ∈ dictKeys m then dictKeys m else dictKeys m ++ [k] := by
  induction m with
  | nil => simp [dictInsert, dictKeys]
  | cons p rest ih =>
    by_cases hpk : p.1 = k
    · simp [dictInsert, dictKeys, hpk]
    · have : (k ∈ dictKeys (p :: rest)) = (k ∈ dictKeys rest) := by
        simp [dictKeys, Ne.symm hpk]
      simp only [dictInsert, if_neg hpk, dictKeys, List.map_cons] at ih ⊢
      rw [ih]
      by_cases hk : k ∈ rest.map Prod.fst
      · simp [hk, Ne.symm hpk]
      · simp [hk, Ne.symm hpk]

theorem dictKeys_buildMap_nodup (nodes : List NodeObj) :
    (dictKeys (buildMap nodes)).Nodup := by
  have haux : ∀ (l : List NodeObj) (acc : List (PyStr × NodeObj)), (dictKeys acc).Nodup →
      (dictKeys (l.foldl (fun m n => dictInsert m (nodeName n) n) acc)).Nodup := by
    intro l
    induction l with
    | nil => intro acc h; exact h
    | cons n rest ih =>
      intro acc h
      rw [List.foldl_cons]
      apply ih
      rw [dictKeys_dictInsert]
      by_cases hk : nodeName n ∈ dictKeys acc
      · simpa [hk] using h
      · simp only [hk, if_false]
        exact List.nodup_middle.mpr (by simpa using ⟨hk, h⟩)
  exact haux nodes [] (by simp [dictKeys])

theorem dictGet_mem (m : List (PyStr × NodeObj)) (k : PyStr) (info : NodeObj)
    (h : dictGet m k = some info) : (k, info) ∈ m := by
  induction m with
  | nil => cases h
  | cons p rest ih =>
    by_cases hpk : p.1 = k
    · rw [dictGet, if_pos hpk] at h
      cases h
      subst hpk
      exact List.mem_cons_self _ _
    · rw [dictGet, if_neg hpk] at h
      exact List.mem_cons_of_mem _ (ih h)

theorem dictGet_of_mem_nodup (m : List (PyStr × NodeObj)) (p : PyStr × NodeObj)
    (hm : p ∈ m) (hnd : (dictKeys m).Nodup) : dictGet m p.1 = some p.2 := by
  induction m with
  | nil => cases hm
  | cons q rest ih =>
    have hnd0 : (q.1 :: dictKeys rest).Nodup := by
      rw [dictKeys, List.map_cons] at hnd
      exact hnd
    have hnd' : q.1 ∉ dictKeys rest ∧ (dictKeys rest).Nodup :=
      List.nodup_cons.mp hnd0
    rcases List.mem_cons.mp hm with rfl | hm'
    · rw [dictGet, if_pos rfl]
    · have : q.1 ≠ p.1 := by
        intro hc
        exact hnd'.1 (hc ▸ List.mem_map_of_mem Prod.fst hm')
      rw [dictGet, if_neg this]
      exact ih hm' hnd'.2

theorem dictGet_name (nodes : List NodeObj) (hnd : (nodes.map nodeName).Nodup)
    (y : NodeObj) (hy : y ∈ nodes) :
    dictGet (buildMap nodes) (nodeName y) = some y := by
  have h1 : (nodeName y, y) ∈ buildMap nodes := by
    rw [buildMap_eq nodes hnd]
    exact List.mem_map_of_mem _ hy
  exact dictGet_of_mem_nodup _ (nodeName y, y) h1 (dictKeys_buildMap_nodup nodes)

theorem foldl_scanStep_suffix (m : List (PyStr × NodeObj)) :
    ∀ (l : List (PyStr × NodeObj)) (ord : List PyStr),
    ∃ t, l.foldl (scanStep m) ord = ord ++ t := by
  intro l
  induction l with
  | nil => intro ord; exact ⟨[], by simp⟩
  | cons p rest ih =>
    intro ord
    rw [List.foldl_cons]
    have hstep : scanStep m ord p = ord ∨ scanStep m ord p = ord ++ [p.1] := by
      rw [scanStep]
      by_cases h1 : p.1 ∈ ord
      · exact .inl (if_pos h1)
      · rw [if_neg h1]
        by_cases h2 : readyCond m ord p.2
        · exact .inr (if_pos h2)
        · exact .inl (if_neg h2)
    obtain ⟨t, ht⟩ := ih (scanStep m ord p)
    rcases hstep with he | he
    · exact ⟨t, by rw [ht, he]⟩
    · exact ⟨[p.1] ++ t, by rw [ht, he, List.append_assoc]⟩

theorem mem_foldl_scanStep (m : List (PyStr × NodeObj))
    (l : List (PyStr × NodeObj)) (ord : List PyStr) (x : PyStr) (hx : x ∈ ord) :
    x ∈ l.foldl (scanStep m) ord := by
  obtain ⟨t, ht⟩ := foldl_scanStep_suffix m l ord
  rw [ht]
  exact List.mem_append_left _ hx

theorem orderedStates_append (m : List (PyStr × NodeObj)) (o t : List PyStr) :
    orderedStates m (o ++ t) = orderedStates m o ++ orderedStates m t :=
  List.filterMap_append o t _

theorem readyCond_mono (m : List (PyStr × NodeObj)) (o t : List PyStr) (info : NodeObj)
    (h : readyCond m o info = true) : readyCond m (o ++ t) info = true := by
  rw [readyCond, Bool.or_eq_true] at h ⊢
  rcases h with h | h
  · left
    rw [List.all_eq_true] at h ⊢
    intro i hi
    have := h i hi
    rw [List.any_eq_true] at this ⊢
    obtain ⟨s, hs, hps⟩ := this
    exact ⟨s, by rw [orderedStates_append]; exact List.mem_append_left _ hs, hps⟩
  · right; exact h

theorem scan_places (m : List (PyStr × NodeObj)) :
    ∀ (l : List (PyStr × NodeObj)) (ord : List PyStr) (k : PyStr) (info : NodeObj),
    (k, info) ∈ l → (k ∈ ord ∨ readyCond m ord info = true) →
    k ∈ l.foldl (scanStep m) ord := by
  intro l
  induction l with
  | nil => intro ord k info hmem; cases hmem
  | cons p rest ih =>
    obtain ⟨pk, pv⟩ := p
    intro ord k info hmem hcond
    rw [List.foldl_cons]
    rcases List.mem_cons.mp hmem with heq | hmem'
    · obtain ⟨rfl, rfl⟩ : pk = k ∧ pv = info := by
        have h1 := congrArg Prod.fst heq
        have h2 := congrArg Prod.snd heq
        exact ⟨h1.symm, h2.symm⟩
      apply mem_foldl_scanStep
      rw [scanStep]
      by_cases h1 : (pk, pv).1 ∈ ord
      · rw [if_pos h1]; exact h1
      · rw [if_neg h1]
        rcases hcond with hin | hready
        · exact absurd hin h1
        · rw [if_pos hready]
          exact List.mem_append_right _ (List.mem_singleton.mpr rfl)
    · obtain ⟨t, ht⟩ : ∃ t, scanStep m ord (pk, pv) = ord ++ t := by
        rw [scanStep]
        by_cases h1 : (pk, pv).1 ∈ ord
        · exact ⟨[], by rw [if_pos h1, List.append_nil]⟩
        · rw [if_neg h1]
          by_cases h2 : readyCond m ord pv
          · exact ⟨[pk], if_pos h2⟩
          · exact ⟨[], by rw [if_neg h2, List.append_nil]⟩
      apply ih (scanStep m ord (pk, pv)) k info hmem'
      rcases hcond with hin | hready
      · left; rw [ht]; exact List.mem_append_left _ hin
      · right; rw [ht]; exact readyCond_mono m ord t info hready

theorem stateName_stripSym (x : PyObj) : stateName (stripSym x) = stateName x := by
  cases x <;> rfl

/-- A set of keys none of which can ever be placed: each one's map entry is
a non-root whose inputs include a state that only matches states of nodes
keyed inside the set. -/
def BlockedSet (m : List (PyStr × NodeObj)) (B : List PyStr) : Prop :=
  ∀ k info, (k, info) ∈ m → k ∈ B → info.is_root = false ∧
    ∃ i ∈ info.inputs.states, ∀ p ∈ m, pyEq i p.2.state = true → p.1 ∈ B

theorem foldl_scanStep_blocked (m : List (PyStr × NodeObj)) (B : List PyStr)
    (hB : BlockedSet m B) :
    ∀ (l : List (PyStr × NodeObj)), (∀ p ∈ l, p ∈ m) →
    ∀ ord, (∀ b ∈ B, b ∉ ord) → ∀ b ∈ B, b ∉ l.foldl (scanStep m) ord := by
  intro l
  induction l with
  | nil => intro _ ord hdisj b hb; exact hdisj b hb
  | cons p rest ih =>
    obtain ⟨pk, pv⟩ := p
    intro hsub ord hdisj
    rw [List.foldl_cons]
    apply ih (fun q hq => hsub q (List.mem_cons_of_mem _ hq))
    intro b hb
    rw [scanStep]
    by_cases h1 : (pk, pv).1 ∈ ord
    · rw [if_pos h1]; exact hdisj b hb
    · rw [if_neg h1]
      by_cases h2 : readyCond m ord pv
      · rw [if_pos h2]
        intro hmem
        rcases List.mem_append.mp hmem with hmem | hmem
        · exact hdisj b hb hmem
        · have hbpk : b = pk := List.mem_singleton.mp hmem
          subst hbpk
          obtain ⟨hroot, i, hi, hblock⟩ := hB b pv (hsub (b, pv) (List.mem_cons_self _ _)) hb
          rw [readyCond, hroot, Bool.or_false, List.all_eq_true] at h2
          obtain ⟨s, hs, hps⟩ := List.any_eq_true.mp (h2 i hi)
          obtain ⟨a, ha, hmap⟩ := List.mem_filterMap.mp hs
          obtain ⟨info2, hget, hst⟩ := Option.map_eq_some.mp hmap
          have hpair := dictGet_mem m a info2 hget
          have haB : a ∈ B := hblock (a, info2) hpair (by rw [hst]; exact hps)
          exact hdisj a haB ha
      · rw [if_neg h2]; exact hdisj b hb

theorem iterate_roundScan_blocked (m : List (PyStr × NodeObj)) (B : List PyStr)
    (hB : BlockedSet m B) :
    ∀ (fuel : Nat) (ord : List PyStr), (∀ b ∈ B, b ∉ ord) →
    ∀ b ∈ B, b ∉ Nat.iterate (roundScan m) fuel ord := by
  intro fuel
  induction fuel with
  | zero => intro ord hdisj b hb; exact hdisj b hb
  | succ fuel ih =>
    intro ord hdisj
    rw [Function.iterate_succ_apply]
    exact ih (roundScan m ord)
      (foldl_scanStep_blocked m B hB m (fun p hp => hp) ord hdisj)

theorem foldl_scanStep_nodup_sub (m : List (PyStr × NodeObj)) :
    ∀ (l : List (PyStr × NodeObj)), (∀ p ∈ l, p.1 ∈ dictKeys m) →
    ∀ ord, ord.Nodup → ord ⊆ dictKeys m →
    (l.foldl (scanStep m) ord).Nodup ∧ (l.foldl (scanStep m) ord) ⊆ dictKeys m := by
  intro l
  induction l with
  | nil => intro _ ord h1 h2; exact ⟨h1, h2⟩
  | cons p rest ih =>
    obtain ⟨pk, pv⟩ := p
    intro hsub ord hnd hss
    rw [List.foldl_cons]
    apply ih (fun q hq => hsub q (List.mem_cons_of_mem _ hq))
    all_goals rw [scanStep]
    all_goals by_cases h1 : (pk, pv).1 ∈ ord
    · rw [if_pos h1]; exact hnd
    · rw [if_neg h1]
      by_cases h2 : readyCond m ord pv
      · rw [if_pos h2]
        have : (ord ++ pk :: []).Nodup := by
          rw [List.nodup_middle]
          simpa using ⟨h1, hnd⟩
        simpa using this
      · rw [if_neg h2]; exact hnd
    · rw [if_pos h1]; exact hss
    · rw [if_neg h1]
      by_cases h2 : readyCond m ord pv
      · rw [if_pos h2]
        intro x hx
        rcases List.mem_append.mp hx with hx | hx
        · exact hss hx
        · rw [List.mem_singleton.mp hx]
          exact hsub (pk, pv) (List.mem_cons_self _ _)
      · rw [if_neg h2]; exact hss

theorem length_lt_of_unplaced (keys ord : List PyStr) (hknd : keys.Nodup)
    (hord : ord.Nodup) (hsub : ord ⊆ keys) (b : PyStr) (hbk : b ∈ keys)
    (hbo : b ∉ ord) : ord.length < keys.length := by
  have hsp : List.Subperm ord keys := List.subperm_of_subset hord hsub
  have hle : ord.length ≤ keys.length := hsp.length_le
  rcases lt_or_eq_of_le hle with h | h
  · exact h
  · exfalso
    have hperm : List.Perm ord keys := hsp.perm_of_length_le (le_of_eq h.symm)
    exact hbo (hperm.symm.subset hbk)

theorem resolveAux_blocked (m : List (PyStr × NodeObj)) (B : List PyStr)
    (hB : BlockedSet m B) (hknd : (dictKeys m).Nodup)
    (b₀ : PyStr) (hb₀ : b₀ ∈ B) (hb₀k : b₀ ∈ dictKeys m) :
    ∀ (fuel : Nat) (ord : List PyStr), ord.Nodup → ord ⊆ dictKeys m →
    (∀ b ∈ B, b ∉ ord) →
    resolveAux m fuel ord
      = .error (.unresolved ((dictKeys m).filter
          (fun x => decide (x ∉ Nat.iterate (roundScan m) fuel ord)))) := by
  have hmlen : (dictKeys m).length = m.length := List.length_map _ _
  intro fuel
  induction fuel with
  | zero =>
    intro ord hnd hsub hdisj
    have hlt : ord.length < m.length := by
      rw [← hmlen]
      exact length_lt_of_unplaced _ ord hknd hnd hsub b₀ hb₀k (hdisj b₀ hb₀)
    rw [resolveAux, if_pos hlt]
    simp only [Function.iterate_zero_apply]
  | succ fuel ih =>
    intro ord hnd hsub hdisj
    have hlt : ord.length < m.length := by
      rw [← hmlen]
      exact length_lt_of_unplaced _ ord hknd hnd hsub b₀ hb₀k (hdisj b₀ hb₀)
    rw [resolveAux, if_pos hlt]
    have hkeys : ∀ p ∈ m, p.1 ∈ dictKeys m := fun p hp => List.mem_map_of_mem _ hp
    obtain ⟨hnd', hsub'⟩ := foldl_scanStep_nodup_sub m m hkeys ord hnd hsub
    have hdisj' := foldl_scanStep_blocked m B hB m (fun p hp => hp) ord hdisj
    rw [ih (roundScan m ord) hnd' hsub' hdisj', Function.iterate_succ_apply]

/-- C5: in a graph with pairwise-distinct state names, every node whose
root flag is set is appended to the order during the very round in which it
is first scanned, whatever the order already contains and whatever the
node's inputs are — the placement condition is an `or` with `is_root`.
Scanning from the empty order, this is the first round. -/
theorem C5_roots_placed_when_scanned (nodes : List NodeObj)
    (hnd : (nodes.map nodeName).Nodup) (n : NodeObj) (hn : n ∈ nodes)
    (hr : n.is_root = true) (ordered : List PyStr) :
    nodeName n ∈ roundScan (buildMap nodes) ordered := by
  apply scan_places (buildMap nodes) (buildMap nodes) ordered (nodeName n) n
  · rw [buildMap_eq nodes hnd]
    exact List.mem_map_of_mem _ hn
  · right
    rw [readyCond, hr, Bool.or_true]

/-- The state of the node named `B` that the root below reads. -/
def stateBleaf : PyObj := .state "B".data (some [1]) (.atom 4) true none

/-- A non-root node named `B` with no inputs. -/
def nodeBplain : NodeObj := ⟨⟨[], [], true⟩, stateBleaf, false⟩

/-- A root node named `A` whose resolved inputs contain `B`'s state. -/
def rootAReadsB : NodeObj :=
  ⟨⟨["B".data], [stateBleaf], true⟩, .state "A".data (some [1]) (.atom 5) true none, true⟩

/-- Witness for `C5_roots_placed_when_scanned`: the root `A` is placed in
the first round even though its input (`B`'s state) is not placed yet. -/
theorem C5_roots_placed_when_scanned_witness :
    nodeName rootAReadsB ∈ roundScan (buildMap [rootAReadsB, nodeBplain]) [] :=
  C5_roots_placed_when_scanned [rootAReadsB, nodeBplain] (by decide)
    rootAReadsB (by decide) rfl []

/-- C2: a graph (with the data-model invariant of pairwise-distinct state
names) containing a dependency cycle among non-root nodes — nodes
`c 0, …, c (k-1)`, each non-root, each holding the next one's state among
its resolved inputs, cyclically — cannot be ordered: `Graph.resolve` fails
with the structural round-budget error whose payload is exactly the keys
still unplaced after `N` rounds, and every cycle member's state name is
among them. -/
theorem C2_cycle_unresolvable (nodes : List NodeObj)
    (hnd : (nodes.map nodeName).Nodup)
    (k : ℕ) (hk : 0 < k) (c : ℕ → NodeObj)
    (hmem : ∀ i < k, c i ∈ nodes)
    (hroot : ∀ i < k, (c i).is_root = false)
    (hcyc : ∀ i < k, (c i).inputs.states.any
        (fun x => pyEq x ((c ((i+1) % k)).state)) = true) :
    graphResolve nodes = .error (.unresolved (unresolvedNames nodes))
    ∧ ∀ i < k, nodeName (c i) ∈ unresolvedNames nodes := by
  have hmm : buildMap nodes = nodes.map (fun n => (nodeName n, n)) := buildMap_eq nodes hnd
  have hinj : ∀ x ∈ nodes, ∀ y ∈ nodes, nodeName x = nodeName y → x = y :=
    fun x hx y hy hxy => List.inj_on_of_nodup_map hnd hx hy hxy
  have hB : BlockedSet (buildMap nodes) ((List.range k).map (fun i => nodeName (c i))) := by
    intro key info hkinfo hkB
    obtain ⟨i, hi, hkey⟩ : ∃ i, i < k ∧ nodeName (c i) = key := by
      obtain ⟨i, hi, hkey⟩ := List.mem_map.mp hkB
      exact ⟨i, List.mem_range.mp hi, hkey⟩
    obtain ⟨y, hy, he⟩ : ∃ y ∈ nodes, (nodeName y, y) = (key, info) := by
      rw [hmm] at hkinfo
      obtain ⟨y, hy, he⟩ := List.mem_map.mp hkinfo
      exact ⟨y, hy, he⟩
    have hyk : nodeName y = key := congrArg Prod.fst he
    have hyi : y = info := congrArg Prod.snd he
    have hyc : y = c i := hinj y hy (c i) (hmem i hi) (by rw [hyk, hkey])
    subst hyi
    refine ⟨by rw [hyc]; exact hroot i hi, ?_⟩
    obtain ⟨x, hx, hpx⟩ := List.any_eq_true.mp (show y.inputs.states.any
        (fun x => pyEq x ((c ((i+1) % k)).state)) = true by rw [hyc]; exact hcyc i hi)
    refine ⟨x, hx, ?_⟩
    intro p hp hpize
    have hp1 : p.1 = nodeName p.2 := by
      rw [hmm] at hp
      obtain ⟨z, hz, hze⟩ := List.mem_map.mp hp
      rw [← hze]
    have h1 : stripSym x = stripSym ((c ((i+1) % k)).state) := of_decide_eq_true hpx
    have h2 : stripSym x = stripSym (p.2.state) := of_decide_eq_true hpize
    have hnames : stateName ((c ((i+1) % k)).state) = stateName (p.2.state) := by
      have h3 := h1.symm.trans h2
      calc stateName ((c ((i+1) % k)).state)
          = stateName (stripSym ((c ((i+1) % k)).state)) := (stateName_stripSym _).symm
        _ = stateName (stripSym (p.2.state)) := by rw [h3]
        _ = stateName (p.2.state) := stateName_stripSym _
    refine List.mem_map.mpr ⟨(i+1) % k, List.mem_range.mpr (Nat.mod_lt _ hk), ?_⟩
    rw [hp1]
    exact hnames
  have hknd := dictKeys_buildMap_nodup nodes
  have hb₀ : nodeName (c 0) ∈ (List.range k).map (fun i => nodeName (c i)) :=
    List.mem_map_of_mem _ (List.mem_range.mpr hk)
  have hb₀k : nodeName (c 0) ∈ dictKeys (buildMap nodes) := by
    rw [dictKeys_buildMap_eq nodes hnd]
    exact List.mem_map_of_mem _ (hmem 0 hk)
  have herr := resolveAux_blocked (buildMap nodes) _ hB hknd _ hb₀ hb₀k
    (buildMap nodes).length [] List.nodup_nil (List.nil_subset _)
    (fun b _ => List.not_mem_nil b)
  have hguard : (dictKeys (buildMap nodes)).dedup.length = (buildMap nodes).length := by
    rw [List.Nodup.dedup hknd]
    exact List.length_map _ _
  constructor
  · have hres : graphResolve nodes
        = (if (dictKeys (buildMap nodes)).dedup.length = (buildMap nodes).length then
            match resolveAux (buildMap nodes) (buildMap nodes).length [] with
            | Except.error e => Except.error e
            | Except.ok ordered => Except.ok (ordered.filterMap
                (fun x => nodes.find? (fun n => decide (nodeName n = x))))
          else Except.error ResolveErr.dupNames) := rfl
    rw [hres, if_pos hguard, herr]
    rfl
  · intro i hi
    have hkmem : nodeName (c i) ∈ dictKeys (buildMap nodes) := by
      rw [dictKeys_buildMap_eq nodes hnd]
      exact List.mem_map_of_mem _ (hmem i hi)
    have hnotin := iterate_roundScan_blocked (buildMap nodes) _ hB
      (buildMap nodes).length [] (fun b _ => List.not_mem_nil b)
      (nodeName (c i)) (List.mem_map_of_mem _ (List.mem_range.mpr hi))
    exact List.mem_filter.mpr ⟨hkmem, decide_eq_true hnotin⟩

/-- The state of the cycle node `B`. -/
def cycStateB : PyObj := .state "B".data (some [1]) .pynone true none

/-- The state of the cycle node `C`. -/
def cycStateC : PyObj := .state "C".data (some [1]) .pynone true none

/-- The non-root node `B`, whose resolved inputs contain `C`'s state. -/
def cycNodeB : NodeObj := ⟨⟨["C".data], [cycStateC], true⟩, cycStateB, false⟩

/-- The non-root node `C`, whose resolved inputs contain `B`'s state. -/
def cycNodeC : NodeObj := ⟨⟨["B".data], [cycStateB], true⟩, cycStateC, false⟩

/-- Witness for `C2_cycle_unresolvable`: the two-node cycle `B ↔ C`
(neither root) fails with the unplaced set, which computes to exactly
`{B, C}`. -/
theorem C2_cycle_unresolvable_witness :
    (graphResolve [cycNodeB, cycNodeC]
        = .error (.unresolved (unresolvedNames [cycNodeB, cycNodeC]))
      ∧ ∀ i < 2, nodeName ((fun i => if i % 2 = 0 then cycNodeB else cycNodeC) i)
          ∈ unresolvedNames [cycNodeB, cycNodeC])
    ∧ unresolvedNames [cycNodeB, cycNodeC] = ["B".data, "C".data] :=
  ⟨C2_cycle_unresolvable [cycNodeB, cycNodeC] (by decide) 2 (by decide)
      (fun i => if i % 2 = 0 then cycNodeB else cycNodeC)
      (by decide) (by decide) (by decide),
   by decide⟩

/-- The order invariant maintained by the scan: every placed non-root's
resolved inputs are all matched by states of nodes placed strictly before
it. -/
def OrderOK (m : List (PyStr × NodeObj)) (ord : List PyStr) : Prop :=
  ∀ j : Nat, ∀ hj : j < ord.length, ∀ info,
    dictGet m (ord.get ⟨j, hj⟩) = some info → info.is_root = false →
    info.inputs.states.all
      (fun i => (orderedStates m (ord.take j)).any (fun s => pyEq i s)) = true

theorem scanStep_orderOK (m : List (PyStr × NodeObj)) (hknd : (dictKeys m).Nodup)
    (ord : List PyStr) (p : PyStr × NodeObj) (hp : p ∈ m)
    (hord : OrderOK m ord) : OrderOK m (scanStep m ord p) := by
  rw [scanStep]
  by_cases h1 : p.1 ∈ ord
  · rw [if_pos h1]; exact hord
  · rw [if_neg h1]
    by_cases h2 : readyCond m ord p.2
    · rw [if_pos h2]
      intro j hj info hget hroot
      have hj' : j < ord.length + 1 := by
        have : (ord ++ [p.1]).length = ord.length + 1 := by simp
        omega
      rcases Nat.lt_succ_iff_lt_or_eq.mp hj' with hlt | heq
      · have hget0 : (ord ++ [p.1]).get ⟨j, hj⟩ = ord.get ⟨j, hlt⟩ :=
          List.get_append j hlt
        have htake : (ord ++ [p.1]).take j = ord.take j :=
          List.take_append_of_le_length (le_of_lt hlt)
        rw [hget0] at hget
        rw [htake]
        exact hord j hlt info hget hroot
      · subst heq
        have hget0 : (ord ++ [p.1]).get ⟨ord.length, hj⟩ = p.1 := by
          rw [List.get_eq_getElem]
          exact List.getElem_concat_length ord p.1 ord.length rfl _
        have htake : (ord ++ [p.1]).take ord.length = ord := List.take_left ord [p.1]
        rw [htake]
        rw [hget0, dictGet_of_mem_nodup m p hp hknd] at hget
        cases hget
        rw [readyCond, hroot, Bool.or_false] at h2
        exact h2
    · rw [if_neg h2]; exact hord

theorem foldl_scanStep_orderOK (m : List (PyStr × NodeObj))
    (hknd : (dictKeys m).Nodup) :
    ∀ (l : List (PyStr × NodeObj)), (∀ p ∈ l, p ∈ m) →
    ∀ ord, OrderOK m ord → OrderOK m (l.foldl (scanStep m) ord) := by
  intro l
  induction l with
  | nil => intro _ ord h; exact h
  | cons p rest ih =>
    intro hsub ord h
    rw [List.foldl_cons]
    exact ih (fun q hq => hsub q (List.mem_cons_of_mem _ hq)) _
      (scanStep_orderOK m hknd ord p (hsub p (List.mem_cons_self _ _)) h)

theorem exists_min_image (f : NodeObj → ℕ) :
    ∀ l : List NodeObj, l ≠ [] → ∃ u ∈ l, ∀ v ∈ l, f u ≤ f v := by
  intro l
  induction l with
  | nil => intro h; exact absurd rfl h
  | cons x rest ih =>
    intro _
    cases rest with
    | nil =>
      refine ⟨x, List.mem_cons_self _ _, ?_⟩
      intro v hv
      rw [List.mem_singleton.mp hv]
    | cons y ys =>
      obtain ⟨u, hu, humin⟩ := ih (by simp)
      by_cases hxu : f x ≤ f u
      · refine ⟨x, List.mem_cons_self _ _, ?_⟩
        intro v hv
        rcases List.mem_cons.mp hv with rfl | hv'
        · exact le_refl _
        · exact le_trans hxu (humin v hv')
      · refine ⟨u, List.mem_cons_of_mem _ hu, ?_⟩
        intro v hv
        rcases List.mem_cons.mp hv with rfl | hv'
        · exact le_of_lt (lt_of_not_le hxu)
        · exact humin v hv'

theorem roundScan_progress (nodes : List NodeObj)
    (hnd : (nodes.map nodeName).Nodup)
    (hcover : ∀ x ∈ nodes, x.is_root = false → ∀ i ∈ x.inputs.states,
        ∃ y ∈ nodes, pyEq i y.state = true)
    (rank : PyStr → ℕ)
    (hrank : ∀ x ∈ nodes, ∀ y ∈ nodes, inputMem x y = true →
        rank (nodeName y) < rank (nodeName x)) :
    ∀ ord : List PyStr, ord.Nodup → ord ⊆ dictKeys (buildMap nodes) →
      ord.length < (buildMap nodes).length →
      ord.length < (roundScan (buildMap nodes) ord).length := by
  intro ord hordnd hordsub hlt
  have hUne : nodes.filter (fun n => decide (nodeName n ∉ ord)) ≠ [] := by
    intro hc
    have hkeys_sub : dictKeys (buildMap nodes) ⊆ ord := by
      intro x hx
      rw [dictKeys_buildMap_eq nodes hnd] at hx
      obtain ⟨y, hy, rfl⟩ := List.mem_map.mp hx
      by_contra hxo
      have hyU : y ∈ nodes.filter (fun n => decide (nodeName n ∉ ord)) :=
        List.mem_filter.mpr ⟨hy, decide_eq_true hxo⟩
      rw [hc] at hyU
      cases hyU
    have hle : (dictKeys (buildMap nodes)).length ≤ ord.length :=
      (List.subperm_of_subset (dictKeys_buildMap_nodup nodes) hkeys_sub).length_le
    have hkl : (dictKeys (buildMap nodes)).length = (buildMap nodes).length :=
      List.length_map _ _
    omega
  have hplace : ∃ u, readyCond (buildMap nodes) ord u = true
      ∧ (nodeName u, u) ∈ buildMap nodes ∧ nodeName u ∉ ord := by
    by_cases hroot : ∃ u ∈ nodes.filter (fun n => decide (nodeName n ∉ ord)),
        u.is_root = true
    · obtain ⟨u, hu, hur⟩ := hroot
      have humem : u ∈ nodes := (List.mem_filter.mp hu).1
      have huno : nodeName u ∉ ord := of_decide_eq_true (List.mem_filter.mp hu).2
      exact ⟨u, by rw [readyCond, hur, Bool.or_true],
        by rw [buildMap_eq nodes hnd]; exact List.mem_map_of_mem _ humem, huno⟩
    · obtain ⟨u, hu, humin⟩ := exists_min_image (fun n => rank (nodeName n)) _ hUne
      have humem : u ∈ nodes := (List.mem_filter.mp hu).1
      have huno : nodeName u ∉ ord := of_decide_eq_true (List.mem_filter.mp hu).2
      have hunr : u.is_root = false := by
        rcases Bool.eq_false_or_eq_true u.is_root with h | h
        · exact absurd ⟨u, hu, h⟩ hroot
        · exact h
      have hready : readyCond (buildMap nodes) ord u = true := by
        rw [readyCond, hunr, Bool.or_false, List.all_eq_true]
        intro i hi
        obtain ⟨y, hy, hpy⟩ := hcover u humem hunr i hi
        have hyU : y ∉ nodes.filter (fun n => decide (nodeName n ∉ ord)) := by
          intro hyU
          have hmemuy : inputMem u y = true := List.any_eq_true.mpr ⟨i, hi, hpy⟩
          have hr1 := hrank u humem y hy hmemuy
          have hr2 := humin y hyU
          omega
        have hyo : nodeName y ∈ ord := by
          by_contra hyo
          exact hyU (List.mem_filter.mpr ⟨hy, decide_eq_true hyo⟩)
        rw [List.any_eq_true]
        refine ⟨y.state, ?_, hpy⟩
        rw [orderedStates]
        refine List.mem_filterMap.mpr ⟨nodeName y, hyo, ?_⟩
        rw [dictGet_name nodes hnd y hy]
        rfl
      exact ⟨u, hready,
        by rw [buildMap_eq nodes hnd]; exact List.mem_map_of_mem _ humem, huno⟩
  obtain ⟨u, hready, humem, huno⟩ := hplace
  have hin : nodeName u ∈ roundScan (buildMap nodes) ord :=
    scan_places (buildMap nodes) (buildMap nodes) ord (nodeName u) u humem (.inr hready)
  obtain ⟨t, ht⟩ := foldl_scanStep_suffix (buildMap nodes) (buildMap nodes) ord
  have hscan : roundScan (buildMap nodes) ord = ord ++ t := ht
  rw [hscan] at hin ⊢
  rcases List.mem_append.mp hin with h | h
  · exact absurd h huno
  · have htne : t ≠ [] := fun hc => by rw [hc] at h; cases h
    have : 0 < t.length := List.length_pos.mpr htne
    rw [List.length_append]
    omega

theorem resolveAux_success (nodes : List NodeObj)
    (hnd : (nodes.map nodeName).Nodup)
    (hcover : ∀ x ∈ nodes, x.is_root = false → ∀ i ∈ x.inputs.states,
        ∃ y ∈ nodes, pyEq i y.state = true)
    (rank : PyStr → ℕ)
    (hrank : ∀ x ∈ nodes, ∀ y ∈ nodes, inputMem x y = true →
        rank (nodeName y) < rank (nodeName x)) :
    ∀ (fuel : Nat) (ord : List PyStr), ord.Nodup →
      ord ⊆ dictKeys (buildMap nodes) → OrderOK (buildMap nodes) ord →
      (buildMap nodes).length - ord.length ≤ fuel →
      ∃ out, resolveAux (buildMap nodes) fuel ord = .ok out ∧ out.Nodup
        ∧ out ⊆ dictKeys (buildMap nodes) ∧ (buildMap nodes).length ≤ out.length
        ∧ OrderOK (buildMap nodes) out := by
  intro fuel
  induction fuel with
  | zero =>
    intro ord h1 h2 h3 h4
    have hge : ¬ ord.length < (buildMap nodes).length := by omega
    rw [resolveAux, if_neg hge]
    exact ⟨ord, rfl, h1, h2, by omega, h3⟩
  | succ fuel ih =>
    intro ord h1 h2 h3 h4
    by_cases hlt : ord.length < (buildMap nodes).length
    · rw [resolveAux, if_pos hlt]
      have hprog := roundScan_progress nodes hnd hcover rank hrank ord h1 h2 hlt
      have hkeys : ∀ p ∈ buildMap nodes, p.1 ∈ dictKeys (buildMap nodes) :=
        fun p hp => List.mem_map_of_mem _ hp
      obtain ⟨h1', h2'⟩ :=
        foldl_scanStep_nodup_sub (buildMap nodes) (buildMap nodes) hkeys ord h1 h2
      have h3' := foldl_scanStep_orderOK (buildMap nodes)
        (dictKeys_buildMap_nodup nodes) (buildMap nodes) (fun p hp => hp) ord h3
      exact ih (roundScan (buildMap nodes) ord) h1' h2' h3' (by omega)
    · rw [resolveAux, if_neg hlt]
      exact ⟨ord, rfl, h1, h2, by omega, h3⟩

theorem find?_name : (nodes : List NodeObj) → (nodes.map nodeName).Nodup →
    ∀ y ∈ nodes, nodes.find? (fun n => decide (nodeName n = nodeName y)) = some y
  | [], _, y, hy => by cases hy
  | x :: rest, hnd, y, hy => by
    have hnd0 : (nodeName x :: rest.map nodeName).Nodup := by
      rw [List.map_cons] at hnd
      exact hnd
    have hnd' := List.nodup_cons.mp hnd0
    rcases List.mem_cons.mp hy with rfl | hy'
    · exact List.find?_cons_of_pos _ (by simp)
    · have hne : nodeName x ≠ nodeName y := by
        intro hc
        exact hnd'.1 (hc ▸ List.mem_map_of_mem _ hy')
      rw [List.find?_cons_of_neg _ (by simp [hne])]
      exact find?_name rest hnd'.2 y hy'

/-- The unique node of the list bearing a given state name (meaningful
under name uniqueness). -/
def theNode (nodes : List NodeObj) (k : PyStr) : NodeObj :=
  (nodes.find? (fun n => decide (nodeName n = k))).getD default

theorem theNode_name (nodes : List NodeObj) (hnd : (nodes.map nodeName).Nodup)
    (y : NodeObj) (hy : y ∈ nodes) : theNode nodes (nodeName y) = y := by
  rw [theNode, find?_name nodes hnd y hy]
  rfl

theorem filterMap_eq_map_of_isSome {α β : Type} (f : α → Option β) (g : α → β)
    (hfg : ∀ a, f a = some (g a) ∨ f a = none) :
    ∀ l : List α, (∀ a ∈ l, (f a).isSome = true) →
    l.filterMap f = l.map g := by
  intro l
  induction l with
  | nil => intro _; rfl
  | cons a rest ih =>
    intro hsome
    rcases hfg a with hfa | hfa
    · rw [List.filterMap_cons, hfa, List.map_cons,
        ih (fun b hb => hsome b (List.mem_cons_of_mem _ hb))]
    · have := hsome a (List.mem_cons_self _ _)
      rw [hfa] at this
      cases this

/-- C1 (amended): on a graph with pairwise-distinct state names, in which
every resolved input of every non-root node equals (Python `==`) the whole
state of some node of the list, and whose reads-relation is acyclic
(witnessed by a rank function decreasing from reader to read node), and
which contains at least one root, `Graph.resolve` terminates within its
`N`-round budget and returns a permutation of the node list in which every
non-root node appears strictly after every node whose state is among its
resolved inputs. -/
theorem C1_acyclic_resolves (nodes : List NodeObj)
    (hnd : (nodes.map nodeName).Nodup)
    (hcover : ∀ x ∈ nodes, x.is_root = false → ∀ i ∈ x.inputs.states,
        ∃ y ∈ nodes, pyEq i y.state = true)
    (rank : PyStr → ℕ)
    (hrank : ∀ x ∈ nodes, ∀ y ∈ nodes, inputMem x y = true →
        rank (nodeName y) < rank (nodeName x))
    (hroot : ∃ n ∈ nodes, n.is_root = true) :
    ∃ out, graphResolve nodes = .ok out ∧ out.Perm nodes
      ∧ ∀ pre x post, out = pre ++ x :: post → x.is_root = false →
          ∀ y ∈ nodes, inputMem x y = true → y ∈ pre := by
  have hknd := dictKeys_buildMap_nodup nodes
  have hkeq := dictKeys_buildMap_eq nodes hnd
  have hkl : (dictKeys (buildMap nodes)).length = (buildMap nodes).length :=
    List.length_map _ _
  obtain ⟨ord, hres, hordnd, hordsub, hordlen, hordok⟩ :=
    resolveAux_success nodes hnd hcover rank hrank (buildMap nodes).length []
      List.nodup_nil (List.nil_subset _)
      (fun j hj info _ _ => by cases hj)
      (by omega)
  -- ord is a permutation of the keys
  have hsp : List.Subperm ord (dictKeys (buildMap nodes)) :=
    List.subperm_of_subset hordnd hordsub
  have hperm : List.Perm ord (dictKeys (buildMap nodes)) :=
    hsp.perm_of_length_le (by omega)
  -- the result of graphResolve
  have hfsome : ∀ a, (nodes.find? (fun n => decide (nodeName n = a)))
      = some (theNode nodes a)
      ∨ (nodes.find? (fun n => decide (nodeName n = a))) = none := by
    intro a
    rcases hfa : nodes.find? (fun n => decide (nodeName n = a)) with _ | y
    · exact .inr rfl
    · exact .inl (by rw [theNode, hfa]; rfl)
  have hsome : ∀ a ∈ ord,
      (nodes.find? (fun n => decide (nodeName n = a))).isSome = true := by
    intro a ha
    have : a ∈ dictKeys (buildMap nodes) := hordsub ha
    rw [hkeq] at this
    obtain ⟨y, hy, rfl⟩ := List.mem_map.mp this
    rw [find?_name nodes hnd y hy]
    rfl
  have houtmap : ord.filterMap (fun a => nodes.find? (fun n => decide (nodeName n = a)))
      = ord.map (theNode nodes) :=
    filterMap_eq_map_of_isSome _ (theNode nodes) hfsome ord hsome
  have htheNode_keys : ∀ a ∈ dictKeys (buildMap nodes),
      theNode nodes a ∈ nodes ∧ nodeName (theNode nodes a) = a := by
    intro a ha
    rw [hkeq] at ha
    obtain ⟨y, hy, rfl⟩ := List.mem_map.mp ha
    rw [theNode_name nodes hnd y hy]
    exact ⟨hy, rfl⟩
  refine ⟨ord.map (theNode nodes), ?_, ?_, ?_⟩
  · have hguard : (dictKeys (buildMap nodes)).dedup.length = (buildMap nodes).length := by
      rw [List.Nodup.dedup hknd]
      exact hkl
    have hgr : graphResolve nodes
        = (if (dictKeys (buildMap nodes)).dedup.length = (buildMap nodes).length then
            match resolveAux (buildMap nodes) (buildMap nodes).length [] with
            | Except.error e => Except.error e
            | Except.ok ordered => Except.ok (ordered.filterMap
                (fun a => nodes.find? (fun n => decide (nodeName n = a))))
          else Except.error ResolveErr.dupNames) := rfl
    rw [hgr, if_pos hguard, hres]
    show Except.ok (ord.filterMap (fun a => nodes.find? (fun n => decide (nodeName n = a))))
      = Except.ok (ord.map (theNode nodes))
    rw [houtmap]
  · have h1 : List.Perm (ord.map (theNode nodes))
        ((dictKeys (buildMap nodes)).map (theNode nodes)) := hperm.map _
    have h2 : (dictKeys (buildMap nodes)).map (theNode nodes) = nodes := by
      rw [hkeq, List.map_map]
      have : ∀ y ∈ nodes, (theNode nodes ∘ nodeName) y = id y := by
        intro y hy
        show theNode nodes (nodeName y) = y
        exact theNode_name nodes hnd y hy
      rw [List.map_congr_left this, List.map_id]
    rw [h2] at h1
    exact h1
  · intro pre x post hsplit hxroot y hy hread
    have hlen : pre.length < ord.length := by
      have h1 : (ord.map (theNode nodes)).length = ord.length := List.length_map _ _
      have h2 : (pre ++ x :: post).length = pre.length + post.length + 1 := by
        simp [List.length_append]
        omega
      rw [hsplit, h2] at h1
      omega
    -- the key at position pre.length is x's name
    have hmlen : pre.length < (List.map (theNode nodes) ord).length := by
      rw [List.length_map]
      exact hlen
    have hgetx : theNode nodes (ord.get ⟨pre.length, hlen⟩) = x := by
      have h1 : (List.map (theNode nodes) ord).get ⟨pre.length, hmlen⟩
          = theNode nodes (ord.get ⟨pre.length, hlen⟩) := by
        rw [List.get_eq_getElem, List.get_eq_getElem, List.getElem_map]
      have h4 : (List.map (theNode nodes) ord).get ⟨pre.length, hmlen⟩ = x := by
        rw [List.get_of_eq hsplit ⟨pre.length, hmlen⟩, List.get_eq_getElem,
          List.getElem_append_right (le_refl pre.length)]
        simp
      rw [← h1, h4]
    have hkmem : ord.get ⟨pre.length, hlen⟩ ∈ dictKeys (buildMap nodes) :=
      hordsub (ord.get_mem _ _)
    obtain ⟨hxmem, hxname⟩ := htheNode_keys _ hkmem
    rw [hgetx] at hxmem hxname
    -- dictGet at that key returns x
    have hget : dictGet (buildMap nodes) (ord.get ⟨pre.length, hlen⟩) = some x := by
      rw [← hxname]
      exact dictGet_name nodes hnd x hxmem
    have hall := hordok pre.length hlen x hget hxroot
    rw [List.all_eq_true] at hall
    obtain ⟨i, hi, hpiy⟩ := List.any_eq_true.mp hread
    obtain ⟨s, hs, hpis⟩ := List.any_eq_true.mp (hall i hi)
    obtain ⟨a, hatake, hamap⟩ := List.mem_filterMap.mp hs
    obtain ⟨info2, hget2, hst2⟩ := Option.map_eq_some.mp hamap
    have hpair := dictGet_mem (buildMap nodes) a info2 hget2
    have hpa : a = nodeName info2 ∧ info2 ∈ nodes := by
      rw [buildMap_eq nodes hnd] at hpair
      obtain ⟨z, hz, hze⟩ := List.mem_map.mp hpair
      have h1 : nodeName z = a := congrArg Prod.fst hze
      have h2 : z = info2 := congrArg Prod.snd hze
      subst h2
      exact ⟨h1.symm, hz⟩
    -- info2 = y via names
    have hin1 : stripSym i = stripSym y.state := of_decide_eq_true hpiy
    have hin2 : stripSym i = stripSym s := of_decide_eq_true hpis
    have hnames : nodeName info2 = nodeName y := by
      have h3 : stripSym (info2.state) = stripSym (y.state) := by
        rw [← hst2] at hin2
        exact hin2.symm.trans hin1
      show stateName info2.state = stateName y.state
      calc stateName info2.state = stateName (stripSym info2.state) :=
            (stateName_stripSym _).symm
        _ = stateName (stripSym y.state) := by rw [h3]
        _ = stateName y.state := stateName_stripSym _
    have hiy : info2 = y := List.inj_on_of_nodup_map hnd hpa.2 hy hnames
    -- y's name is in the prefix of ord, hence y is in pre
    have hyin : nodeName y ∈ ord.take pre.length := by
      rw [← hiy, ← hpa.1]
      exact hatake
    have hpre : pre = (ord.take pre.length).map (theNode nodes) := by
      have h2 : (ord.map (theNode nodes)).take pre.length = pre := by
        rw [hsplit]
        exact List.take_left pre _
      conv_lhs => rw [← h2]
      exact (List.map_take _ _ _).symm
    rw [hpre]
    refine List.mem_map.mpr ⟨nodeName y, hyin, ?_⟩
    exact theNode_name nodes hnd y hy

/-- The leaf `h1` of the hierarchical root state below. -/
def hierLeaf : PyObj := .state "h1".data (some [1]) (.atom 6) true none

/-- A root node `H` whose state is hierarchical, with the single leaf `h1`. -/
def hierRoot : NodeObj :=
  ⟨⟨[], [], true⟩, .state "H".data none (.pylist [hierLeaf]) false none, true⟩

/-- A non-root node `W` whose resolved input is the leaf `h1` of `H`. -/
def readsLeaf : NodeObj :=
  ⟨⟨"H/h1".data :: [], [hierLeaf], true⟩, .state "W".data (some [1]) (.atom 7) true none, false⟩

/-- C1 (counterexample to the claim as stated), in two parts.  First, the
acyclic two-node graph where the root `A` reads the non-root `B`: `resolve`
terminates but places `A` strictly before `B`, the node owning `A`'s
resolved input — roots are placed unconditionally, so the returned order
does not put every node after all owners of its inputs.  Second, the
acyclic rooted graph where `W` reads the leaf `h1` of the hierarchical
root `H`: the placement test compares the input against whole node states,
never against leaves, so `W` is never placeable and `resolve` fails with
the round-budget error instead of returning a permutation. -/
theorem C1_counterexample :
    (rootAReadsB.is_root = true
      ∧ inputMem rootAReadsB nodeBplain = true
      ∧ graphResolve [rootAReadsB, nodeBplain] = .ok [rootAReadsB, nodeBplain])
    ∧ (hierRoot.is_root = true
      ∧ readsLeaf.is_root = false
      ∧ readsLeaf.inputs.states = [hierLeaf]
      ∧ hierLeaf ∈ getAllStates hierRoot.state
      ∧ graphResolve [hierRoot, readsLeaf] = .error (.unresolved ["W".data])) :=
  ⟨⟨rfl, by decide, rfl⟩, ⟨rfl, rfl, rfl, by decide, rfl⟩⟩

/-- The state of the chain root `A`. -/
def chainStateA : PyObj := .state "A".data (some [1]) (.atom 10) true none

/-- The state of the chain node `B`, which reads `A`. -/
def chainStateB : PyObj := .state "B".data (some [1]) (.atom 11) true none

/-- The state of the chain node `C`, which reads `B`. -/
def chainStateC : PyObj := .state "C".data (some [1]) (.atom 12) true none

/-- The chain root `A`. -/
def chainA : NodeObj := ⟨⟨[], [], true⟩, chainStateA, true⟩

/-- The chain node `B`, with `A`'s state among its resolved inputs. -/
def chainB : NodeObj := ⟨⟨"A".data :: [], [chainStateA], true⟩, chainStateB, false⟩

/-- The chain node `C`, with `B`'s state among its resolved inputs. -/
def chainC : NodeObj := ⟨⟨"B".data :: [], [chainStateB], true⟩, chainStateC, false⟩

/-- Witness for `C1_acyclic_resolves`: the three-node chain `A → B → C`
declared in the order `[C, A, B]`, which also computes to the execution
order `[A, B, C]`. -/
theorem C1_acyclic_resolves_witness :
    (∃ out, graphResolve [chainC, chainA, chainB] = .ok out
      ∧ out.Perm [chainC, chainA, chainB]
      ∧ ∀ pre x post, out = pre ++ x :: post → x.is_root = false →
          ∀ y ∈ [chainC, chainA, chainB], inputMem x y = true → y ∈ pre)
    ∧ graphResolve [chainC, chainA, chainB] = .ok [chainA, chainB, chainC] :=
  ⟨C1_acyclic_resolves [chainC, chainA, chainB] (by decide) (by decide)
    (fun s => if s = "C".data then 2 else if s = "B".data then 1 else 0)
    (by decide) ⟨chainA, by decide, rfl⟩, rfl⟩

end Regelum
